import Mathlib

/-!
Shallow embedding of the OP_Scribe registry contract (`contract/src/index.ts`).

Strings are modelled as lists of UTF-8 byte values (`List Nat`, each element
`< 256`); `u256` values are modelled as `Nat` with explicit `% 2^256`-style
guards where the source's `SafeMath` operations revert on overflow; the
per-pointer `StoredMapU256` stores are modelled as total functions
`Nat → Nat` defaulting to `0`, matching zero-initialised blockchain storage.
A contract call that reverts is modelled by `Except.error`: revert semantics
mean no partial write survives a failed call.
-/

namespace OPScribe

/-- The `u256` modulus: arithmetic in the source is 256-bit with
`SafeMath` reverting on overflow. -/
def U256 : Nat := 2 ^ 256

/-- The `u64` modulus: the two hash accumulators in `cidToKey` are `u64`. -/
def U64 : Nat := 2 ^ 64

/-- Pointwise update of a storage map, the model of `StoredMapU256.set`. -/
def update (m : Nat → Nat) (k v : Nat) : Nat → Nat :=
  fun x => if x = k then v else m x

/-- `u256.fromBytesBE`: interpret a byte list as a big-endian number. -/
def bytesToNatBE (bs : List Nat) : Nat :=
  bs.foldl (fun acc b => acc * 256 + b) 0

/-- `u256.toUint8Array(true)` restricted to `n` big-endian bytes: byte `j`
(from the most significant end) is `v / 256^(n-1-j) % 256`. -/
def natToBytesBE : Nat → Nat → List Nat
  | 0, _ => []
  | n + 1, v => (v / 256 ^ n % 256) :: natToBytesBE n v

/-- The 32-byte `chunkArr` of `storeString`: the copied bytes followed by the
zero fill that `new Array<u8>(32)` provides. -/
def padChunk (c : List Nat) : List Nat :=
  c ++ List.replicate (32 - c.length) 0

/-- The chunk-writing loop of `storeString`.  `rest` is the not-yet-stored
suffix of the byte string, `i` the current chunk index and `fuel` the number
of chunks still to write.  Each iteration computes
`slotKey = SafeMath.add(baseKey, i+1)` (reverting, i.e. `none`, on `u256`
overflow) and stores the 32-byte chunk big-endian. -/
def storeChunks (map : Nat → Nat) (baseKey : Nat) (rest : List Nat) :
    Nat → Nat → Option (Nat → Nat)
  | _, 0 => some map
  | i, fuel + 1 =>
    if baseKey + (i + 1) < U256 then
      storeChunks (update map (baseKey + (i + 1)) (bytesToNatBE (padChunk (rest.take 32))))
        baseKey (rest.drop 32) (i + 1) fuel
    else none

/-- `storeString(map, baseKey, value)`: slot `baseKey` holds the byte length,
slots `baseKey + 1, ...` hold the `ceil(len/32)` big-endian 32-byte chunks. -/
def storeString (map : Nat → Nat) (baseKey : Nat) (value : List Nat) :
    Option (Nat → Nat) :=
  let totalLen := value.length
  let m0 := update map baseKey totalLen
  storeChunks m0 baseKey value 0 ((totalLen + 31) / 32)

/-- The chunk-reading loop of `readString`: reads `fuel` slots starting at
chunk index `i`, decoding each slot into its 32 big-endian bytes.  Mirrors the
source, which concatenates the per-chunk byte windows in order. -/
def readChunks (map : Nat → Nat) (baseKey : Nat) : Nat → Nat → Option (List Nat)
  | _, 0 => some []
  | i, fuel + 1 =>
    if baseKey + (i + 1) < U256 then
      match readChunks map baseKey (i + 1) fuel with
      | some restBytes => some (natToBytesBE 32 (map (baseKey + (i + 1))) ++ restBytes)
      | none => none
    else none

/-- `readString(map, baseKey)`: reads the length slot (returning `''` when it
is zero), truncates it to `u32` (`lengthVal.toU32`), traps (models the
AssemblyScript abort on a negative `i32` buffer size) when the truncated
length does not fit in `i32`, then reassembles the first `totalLen` bytes of
the chunk slots. -/
def readString (map : Nat → Nat) (baseKey : Nat) : Option (List Nat) :=
  if map baseKey = 0 then some []
  else
    let totalLen := map baseKey % 2 ^ 32
    if totalLen < 2 ^ 31 then
      match readChunks map baseKey 0 ((totalLen + 31) / 32) with
      | some bs => some (bs.take totalLen)
      | none => none
    else none

/-- FNV offset basis, the seed of the `hi` accumulator in `cidToKey`. -/
def fnvOffset : Nat := 0xcbf29ce484222325

/-- FNV prime, the seed of the `lo` accumulator in `cidToKey`. -/
def fnvPrime : Nat := 0x100000001b3

/-- The byte loop of `cidToKey`: one pass over the input bytes updating the
two `u64` accumulators exactly as the source does
(`hi = (hi ^ b) * 0x100000001b3`, `lo = (lo ^ (b + i)) * 0xcbf29ce484222325`,
both in wrapping `u64` arithmetic). -/
def cidMix : List Nat → Nat → Nat → Nat → Nat × Nat
  | [], _, hi, lo => (hi, lo)
  | b :: restBytes, i, hi, lo =>
    cidMix restBytes (i + 1)
      ((hi ^^^ b) * fnvPrime % U64)
      ((lo ^^^ ((b + i) % U64)) * fnvOffset % U64)

/-- Bitwise complement of a `u64` value (`~x` in the source). -/
def comp64 (x : Nat) : Nat := (U64 - 1) - x % U64

/-- `cidToKey(cid)`: the deterministic `u256` storage key of a CID.  The
as-bignum `u256(lo1, lo2, hi1, hi2)` constructor takes limbs least
significant first, so `new u256(lo, hi, ~hi, ~lo)` denotes
`lo + hi·2^64 + ~hi·2^128 + ~lo·2^192`. -/
def cidToKey (cid : List Nat) : Nat :=
  let p := cidMix cid 0 fnvOffset fnvPrime
  p.2 + p.1 * 2 ^ 64 + comp64 p.1 * 2 ^ 128 + comp64 p.2 * 2 ^ 192

/-- The `hi` accumulator of `cidToKey` as a standalone fold: it is seeded
with the FNV offset basis and consumes one byte per step, independent of the
`lo` accumulator. -/
def hiStep (h b : Nat) : Nat := (h ^^^ b) * fnvPrime % U64

/-- The `hi` accumulator applied to a whole byte string. -/
def hiMix (cid : List Nat) : Nat := cid.foldl hiStep fnvOffset

/-- One step of the `lo` accumulator at byte index `i`: XOR with `b + i`
(wrapping `u64`), then multiply by the odd constant, independent of `hi`. -/
def loStep (i l b : Nat) : Nat := (l ^^^ ((b + i) % U64)) * fnvOffset % U64

/-- The `lo` accumulator of `cidToKey` as a standalone indexed fold, seeded
with the FNV prime. -/
def loMixAux : List Nat → Nat → Nat → Nat
  | [], _, l => l
  | b :: restBytes, i, l => loMixAux restBytes (i + 1) (loStep i l b)

/-- The `lo` accumulator applied to a whole byte string. -/
def loMix (cid : List Nat) : Nat := loMixAux cid 0 fnvPrime

/-- The assembled 256-bit key from the two accumulator values. -/
def assembleKey (hi lo : Nat) : Nat :=
  lo + hi * 2 ^ 64 + comp64 hi * 2 ^ 128 + comp64 lo * 2 ^ 192

/-- The contract's persistent storage: the `paused` flag, the `totalFiles`
counter and the seven `StoredMapU256` regions, each with its own pointer and
hence its own independent key space. -/
structure State where
  paused : Bool
  totalFiles : Nat
  fileSizes : Nat → Nat
  fileUploaders : Nat → Nat
  fileBlocks : Nat → Nat
  fileTimestamps : Nat → Nat
  fileExists : Nat → Nat
  fileNameChunks : Nat → Nat
  cidChunks : Nat → Nat

/-- Storage after `onDeployment`: zero-initialised slots, `paused = false`,
`totalFiles = 0`. -/
def initState : State where
  paused := false
  totalFiles := 0
  fileSizes := fun _ => 0
  fileUploaders := fun _ => 0
  fileBlocks := fun _ => 0
  fileTimestamps := fun _ => 0
  fileExists := fun _ => 0
  fileNameChunks := fun _ => 0
  cidChunks := fun _ => 0

/-- The distinct `Revert` reasons of the contract (including the `SafeMath`
overflow reverts and the deployer check of `pause`/`unpause`). -/
inductive Err where
  | Paused
  | EmptyCid
  | EmptyName
  | ZeroSize
  | AlreadyRegistered
  | IndexOutOfBounds
  | MathOverflow
  | Unauthorized
deriving DecidableEq, Repr

/-- The record shape returned by `getFile`: name, size, uploader, block
number, timestamp and the `exists` flag (called `found` here because
`exists` is reserved in Lean). -/
structure FileRecord where
  fileName : List Nat
  fileSize : Nat
  uploader : Nat
  blockNumber : Nat
  timestamp : Nat
  found : Bool
deriving DecidableEq, Repr

/-- The record shape returned by `getFileByIndex` (no `exists` flag, but the
reconstructed CID). -/
structure IndexedFile where
  cid : List Nat
  fileName : List Nat
  fileSize : Nat
  uploader : Nat
  blockNumber : Nat
  timestamp : Nat
deriving DecidableEq, Repr

/-- `registerFile`.  Arguments beyond the calldata triple
`(cid, fileName, fileSize)` are the ambient values the source reads from the
runtime: `sender` is the 32-byte `Blockchain.tx.sender` address,
`blockNumber`/`timestamp` are `Blockchain.block.number` and
`Blockchain.block.medianTimestamp`.  The source's write order is kept:
scalar fields, `exists` flag, name chunks, then the ordinal-indexed CID
chunks at `SafeMath.mul(totalFiles, 256)` and the `SafeMath.add` increment. -/
def registerFile (s : State) (sender : List Nat) (blockNumber timestamp : Nat)
    (cid fileName : List Nat) (fileSize : Nat) : Except Err State :=
  if s.paused then .error .Paused
  else if cid.length = 0 then .error .EmptyCid
  else if fileName.length = 0 then .error .EmptyName
  else if fileSize = 0 then .error .ZeroSize
  else
    let cidKey := cidToKey cid
    if s.fileExists cidKey = 1 then .error .AlreadyRegistered
    else
      let s1 : State :=
        { s with
          fileSizes := update s.fileSizes cidKey fileSize
          fileUploaders := update s.fileUploaders cidKey (bytesToNatBE sender)
          fileBlocks := update s.fileBlocks cidKey blockNumber
          fileTimestamps := update s.fileTimestamps cidKey timestamp
          fileExists := update s.fileExists cidKey 1 }
      match storeString s1.fileNameChunks cidKey fileName with
      | none => .error .MathOverflow
      | some nameMap =>
        let currentIndex := s.totalFiles
        if currentIndex * 256 < U256 then
          match storeString s1.cidChunks (currentIndex * 256) cid with
          | none => .error .MathOverflow
          | some cidMap =>
            if currentIndex + 1 < U256 then
              .ok { s1 with
                      fileNameChunks := nameMap
                      cidChunks := cidMap
                      totalFiles := currentIndex + 1 }
            else .error .MathOverflow
        else .error .MathOverflow

/-- `getFile(cid)`: point lookup by identifier.  A miss returns the zeroed
record with `exists = false` without touching any other slot. -/
def getFile (s : State) (cid : List Nat) : Except Err FileRecord :=
  let cidKey := cidToKey cid
  if s.fileExists cidKey = 1 then
    match readString s.fileNameChunks cidKey with
    | some nm =>
      .ok { fileName := nm
            fileSize := s.fileSizes cidKey
            uploader := s.fileUploaders cidKey
            blockNumber := s.fileBlocks cidKey
            timestamp := s.fileTimestamps cidKey
            found := true }
    | none => .error .MathOverflow
  else
    .ok { fileName := [], fileSize := 0, uploader := 0, blockNumber := 0,
          timestamp := 0, found := false }

/-- `checkFileExists(cid)`: the existence-only probe. -/
def checkFileExists (s : State) (cid : List Nat) : Bool :=
  s.fileExists (cidToKey cid) == 1

/-- `getTotalFiles()`. -/
def getTotalFiles (s : State) : Nat := s.totalFiles

/-- `getFileByIndex(index)`: ordinal lookup.  Reverts with
`Index out of bounds` when `index >= totalFiles`, otherwise reconstructs the
CID from the ordinal-indexed chunk store at `SafeMath.mul(index, 256)`,
re-derives its key and reads the same fields as `getFile`. -/
def getFileByIndex (s : State) (index : Nat) : Except Err IndexedFile :=
  if s.totalFiles ≤ index then .error .IndexOutOfBounds
  else if index * 256 < U256 then
    match readString s.cidChunks (index * 256) with
    | none => .error .MathOverflow
    | some cid =>
      let cidKey := cidToKey cid
      match readString s.fileNameChunks cidKey with
      | none => .error .MathOverflow
      | some nm =>
        .ok { cid := cid
              fileName := nm
              fileSize := s.fileSizes cidKey
              uploader := s.fileUploaders cidKey
              blockNumber := s.fileBlocks cidKey
              timestamp := s.fileTimestamps cidKey }
  else .error .MathOverflow

/-- `pause()`: deployer-only switch to `paused = true`. -/
def pause (s : State) (sender deployer : List Nat) : Except Err State :=
  if sender = deployer then .ok { s with paused := true } else .error .Unauthorized

/-- `unpause()`: deployer-only switch to `paused = false`. -/
def unpause (s : State) (sender deployer : List Nat) : Except Err State :=
  if sender = deployer then .ok { s with paused := false } else .error .Unauthorized

/-- `getIsPaused()`. -/
def getIsPaused (s : State) : Bool := s.paused

/-- Post-transaction state of a `registerFile` call: on revert the chain
state is unchanged. -/
def registerStep (s : State) (sender : List Nat) (blockNumber timestamp : Nat)
    (cid fileName : List Nat) (fileSize : Nat) : State :=
  match registerFile s sender blockNumber timestamp cid fileName fileSize with
  | .ok s' => s'
  | .error _ => s

/-- Post-transaction state of a `pause` call. -/
def pauseStep (s : State) (sender deployer : List Nat) : State :=
  match pause s sender deployer with
  | .ok s' => s'
  | .error _ => s

/-- Post-transaction state of an `unpause` call. -/
def unpauseStep (s : State) (sender deployer : List Nat) : State :=
  match unpause s sender deployer with
  | .ok s' => s'
  | .error _ => s

/-- The pure payload of the chunk-reading loop: the concatenation of the
decoded 32-byte windows of `fuel` consecutive slots starting after chunk
index `i`.  `readChunks` returns exactly this list when no slot-key overflow
occurs. -/
def readList (map : Nat → Nat) (baseKey : Nat) : Nat → Nat → List Nat
  | _, 0 => []
  | i, fuel + 1 =>
    natToBytesBE 32 (map (baseKey + (i + 1))) ++ readList map baseKey (i + 1) fuel

/-- Reachable contract states, together with the log of the successfully
registered identifiers in call order.  The byte-validity and length side
conditions on `cid`/`fileName` hold for every AssemblyScript string (UTF-8
bytes are `< 256` and string lengths are below `2^31`); failed calls revert
and leave the state unchanged, so only successful mutations appear. -/
inductive Reachable : State → List (List Nat) → Prop where
  | init : Reachable initState []
  | register (s : State) (log : List (List Nat)) (sender : List Nat)
      (blockNumber timestamp : Nat) (cid fileName : List Nat) (fileSize : Nat)
      (s' : State)
      (hr : Reachable s log)
      (hcb : ∀ b ∈ cid, b < 256) (hcl : cid.length < 2 ^ 31)
      (hnb : ∀ b ∈ fileName, b < 256) (hnl : fileName.length < 2 ^ 31)
      (hok : registerFile s sender blockNumber timestamp cid fileName fileSize = .ok s') :
      Reachable s' (log ++ [cid])
  | setPaused (s : State) (log : List (List Nat)) (b : Bool)
      (hr : Reachable s log) : Reachable { s with paused := b } log

/-- Core reachability invariant: the counter matches the log, every logged
identifier is a well-formed non-empty byte string, its record is marked
existing with a readable name, and keys never claimed by a logged identifier
still carry a zero `exists` flag. -/
def InvA (s : State) (log : List (List Nat)) : Prop :=
  s.totalFiles = log.length ∧
  log.length ≤ 2 ^ 248 ∧
  (∀ c ∈ log, c ≠ [] ∧ c.length < 2 ^ 31 ∧ ∀ b ∈ c, b < 256) ∧
  (∀ c ∈ log, s.fileExists (cidToKey c) = 1 ∧
    ∃ nm, readString s.fileNameChunks (cidToKey c) = some nm) ∧
  (∀ k, (∀ c ∈ log, cidToKey c ≠ k) → s.fileExists k = 0)

/-- Ordinal-store invariant (needs the 8160-byte identifier bound): the
ordinal-indexed chunk region of every logged identifier decodes back to that
identifier. -/
def InvB (s : State) (log : List (List Nat)) : Prop :=
  ∀ i, i < log.length → readString s.cidChunks (i * 256) = some (log.getD i [])

/-- Whether a contract call succeeded (did not revert). -/
def isOkB : Except Err State → Bool
  | .ok _ => true
  | .error _ => false

/-- A 32-byte sender address used by concrete witnesses. -/
def devAddr : List Nat := List.replicate 32 0

/-- An 8161-byte identifier: its chunk count `ceil(8161/32) = 256` makes its
chunk slots reach slot `256`, the base slot of ordinal 1's reserved region. -/
def cexCid : List Nat := List.replicate 8161 1

/-- State after registering the over-long identifier `cexCid` as ordinal 0. -/
def cexS1 : State := registerStep initState devAddr 1 2 cexCid [65] 5

/-- State after additionally registering the ordinary identifier `[50]` as
ordinal 1: its length slot at key 256 overwrites `cexCid`'s last chunk. -/
def cexS2 : State := registerStep cexS1 devAddr 1 2 [50] [66] 7

/-! ### Basic lemmas: storage updates and the big-endian byte codec -/

theorem update_same (m : Nat → Nat) (k v : Nat) : update m k v k = v := by
  simp [update]

theorem update_other (m : Nat → Nat) (k v x : Nat) (h : x ≠ k) : update m k v x = m x := by
  simp [update, h]

theorem foldlBE (bs : List Nat) : ∀ a : Nat,
    bs.foldl (fun acc b => acc * 256 + b) a =
      a * 256 ^ bs.length + bs.foldl (fun acc b => acc * 256 + b) 0 := by
  induction bs with
  | nil => intro a; simp
  | cons b bs ih =>
    intro a
    simp only [List.foldl_cons, List.length_cons]
    rw [ih (a * 256 + b), ih (0 * 256 + b)]
    ring

theorem bytesToNatBE_cons (b : Nat) (bs : List Nat) :
    bytesToNatBE (b :: bs) = b * 256 ^ bs.length + bytesToNatBE bs := by
  simp only [bytesToNatBE, List.foldl_cons]
  rw [foldlBE bs (0 * 256 + b)]
  ring_nf

theorem bytesToNatBE_lt (bs : List Nat) (h : ∀ x ∈ bs, x < 256) :
    bytesToNatBE bs < 256 ^ bs.length := by
  induction bs with
  | nil => simp [bytesToNatBE]
  | cons b bs ih =>
    rw [bytesToNatBE_cons]
    have hb : b < 256 := h b (by simp)
    have hr : bytesToNatBE bs < 256 ^ bs.length := ih (fun x hx => h x (by simp [hx]))
    have : b * 256 ^ bs.length + bytesToNatBE bs < (b + 1) * 256 ^ bs.length := by
      have := Nat.pos_pow_of_pos (n := 256) bs.length (by norm_num)
      nlinarith
    calc b * 256 ^ bs.length + bytesToNatBE bs < (b + 1) * 256 ^ bs.length := this
      _ ≤ 256 * 256 ^ bs.length := Nat.mul_le_mul_right _ hb
      _ = 256 ^ (bs.length + 1) := by ring
      _ = 256 ^ (b :: bs).length := by simp

theorem natToBytesBE_length (n v : Nat) : (natToBytesBE n v).length = n := by
  induction n generalizing v with
  | zero => rfl
  | succ n ih => simp [natToBytesBE, ih]

theorem natToBytesBE_high (n : Nat) : ∀ a v : Nat,
    natToBytesBE n (a * 256 ^ n + v) = natToBytesBE n v := by
  induction n with
  | zero => intro a v; rfl
  | succ n ih =>
    intro a v
    have e : a * 256 ^ (n + 1) + v = 256 ^ n * (a * 256) + v := by ring
    simp only [natToBytesBE, e]
    have hpos : 0 < 256 ^ n := Nat.pos_pow_of_pos n (by norm_num)
    have h1 : (256 ^ n * (a * 256) + v) / 256 ^ n % 256 = v / 256 ^ n % 256 := by
      rw [Nat.add_comm, Nat.add_mul_div_left _ _ hpos, Nat.mul_comm a 256,
        Nat.add_mul_mod_self_left]
    have h2 : natToBytesBE n (256 ^ n * (a * 256) + v) = natToBytesBE n v := by
      rw [show 256 ^ n * (a * 256) + v = (a * 256) * 256 ^ n + v from by ring]
      exact ih (a * 256) v
    rw [h1, h2]

theorem natToBytesBE_bytesToNatBE (bs : List Nat) (h : ∀ x ∈ bs, x < 256) :
    natToBytesBE bs.length (bytesToNatBE bs) = bs := by
  induction bs with
  | nil => rfl
  | cons b bs ih =>
    have hb : b < 256 := h b (by simp)
    have hr : bytesToNatBE bs < 256 ^ bs.length :=
      bytesToNatBE_lt bs (fun x hx => h x (by simp [hx]))
    have hpos : 0 < 256 ^ bs.length := Nat.pos_pow_of_pos _ (by norm_num)
    simp only [List.length_cons, natToBytesBE, bytesToNatBE_cons]
    have h1 : (b * 256 ^ bs.length + bytesToNatBE bs) / 256 ^ bs.length % 256 = b := by
      rw [Nat.add_comm, Nat.mul_comm b, Nat.add_mul_div_left _ _ hpos,
        Nat.div_eq_of_lt hr, Nat.zero_add, Nat.mod_eq_of_lt hb]
    have h2 : natToBytesBE bs.length (b * 256 ^ bs.length + bytesToNatBE bs) = bs := by
      rw [natToBytesBE_high]
      exact ih (fun x hx => h x (by simp [hx]))
    rw [h1, h2]

theorem padChunk_length (c : List Nat) (h : c.length ≤ 32) : (padChunk c).length = 32 := by
  simp [padChunk]
  omega

theorem padChunk_lt (c : List Nat) (h : ∀ x ∈ c, x < 256) :
    ∀ x ∈ padChunk c, x < 256 := by
  intro x hx
  rcases List.mem_append.mp hx with hc | hrep
  · exact h x hc
  · rw [List.eq_of_mem_replicate hrep]; norm_num

theorem padChunk_roundtrip (c : List Nat) (hlen : c.length ≤ 32)
    (h : ∀ x ∈ c, x < 256) :
    natToBytesBE 32 (bytesToNatBE (padChunk c)) = padChunk c := by
  have := natToBytesBE_bytesToNatBE (padChunk c) (padChunk_lt c h)
  rwa [padChunk_length c hlen] at this

theorem padChunk_full (c : List Nat) (h : c.length = 32) : padChunk c = c := by
  simp [padChunk, h]

/-! ### The chunk-writing and chunk-reading loops -/

theorem storeChunks_spec (baseKey : Nat) : ∀ (fuel i : Nat) (map : Nat → Nat)
    (rest : List Nat), baseKey + i + fuel < U256 →
    ∃ m, storeChunks map baseKey rest i fuel = some m ∧
      (∀ k, k ≤ baseKey + i ∨ baseKey + i + fuel < k → m k = map k) ∧
      (∀ j, j < fuel → m (baseKey + i + j + 1) =
        bytesToNatBE (padChunk ((rest.drop (32 * j)).take 32))) := by
  intro fuel
  induction fuel with
  | zero =>
    intro i map rest _
    exact ⟨map, rfl, fun k _ => rfl, fun j hj => absurd hj (by omega)⟩
  | succ fuel ih =>
    intro i map rest h
    have hguard : baseKey + (i + 1) < U256 := by omega
    have hrec : baseKey + (i + 1) + fuel < U256 := by omega
    obtain ⟨m, hm, hframe, hslots⟩ :=
      ih (i + 1) (update map (baseKey + (i + 1)) (bytesToNatBE (padChunk (rest.take 32))))
        (rest.drop 32) hrec
    refine ⟨m, ?_, ?_, ?_⟩
    · rw [storeChunks, if_pos hguard]
      exact hm
    · intro k hk
      have hk2 : k ≤ baseKey + (i + 1) ∨ baseKey + (i + 1) + fuel < k := by omega
      rw [hframe k hk2, update_other]
      omega
    · intro j hj
      match j with
      | 0 =>
        have : m (baseKey + (i + 1)) =
            bytesToNatBE (padChunk (rest.take 32)) := by
          rw [hframe (baseKey + (i + 1)) (Or.inl (by omega)), update_same]
        simpa using this
      | j + 1 =>
        have hs := hslots j (by omega)
        have hkey : baseKey + (i + 1) + j + 1 = baseKey + i + (j + 1) + 1 := by omega
        have hdrop : (rest.drop 32).drop (32 * j) = rest.drop (32 * (j + 1)) := by
          rw [List.drop_drop]
          congr 1
          ring
        rw [hkey, hdrop] at hs
        exact hs

theorem storeChunks_bound (baseKey : Nat) : ∀ (fuel i : Nat) (map m : Nat → Nat)
    (rest : List Nat), storeChunks map baseKey rest i fuel = some m →
    fuel = 0 ∨ baseKey + i + fuel < U256 := by
  intro fuel
  induction fuel with
  | zero => intro i map m rest _; exact Or.inl rfl
  | succ fuel ih =>
    intro i map m rest h
    rw [storeChunks] at h
    by_cases hguard : baseKey + (i + 1) < U256
    · rw [if_pos hguard] at h
      rcases ih (i + 1) _ m (rest.drop 32) h with h0 | hlt
      · right; omega
      · right; omega
    · rw [if_neg hguard] at h
      exact absurd h (by simp)

theorem readChunks_eq_readList (map : Nat → Nat) (baseKey : Nat) :
    ∀ fuel i : Nat, baseKey + i + fuel < U256 →
    readChunks map baseKey i fuel = some (readList map baseKey i fuel) := by
  intro fuel
  induction fuel with
  | zero => intro i _; rfl
  | succ fuel ih =>
    intro i h
    rw [readChunks, if_pos (by omega : baseKey + (i + 1) < U256),
      ih (i + 1) (by omega)]
    rfl

theorem readChunks_congr (m1 m2 : Nat → Nat) (baseKey : Nat) :
    ∀ fuel i : Nat, (∀ j, i < j → j ≤ i + fuel → m1 (baseKey + j) = m2 (baseKey + j)) →
    readChunks m1 baseKey i fuel = readChunks m2 baseKey i fuel := by
  intro fuel
  induction fuel with
  | zero => intro i _; rfl
  | succ fuel ih =>
    intro i h
    rw [readChunks, readChunks, h (i + 1) (by omega) (by omega),
      ih (i + 1) (fun j h1 h2 => h j (by omega) (by omega))]

theorem readChunks_none_or_len (map : Nat → Nat) (baseKey : Nat) :
    ∀ fuel i bs, readChunks map baseKey i fuel = some bs →
    bs.length = 32 * fuel ∧ (fuel = 0 ∨ baseKey + i + fuel < U256) := by
  intro fuel
  induction fuel with
  | zero =>
    intro i bs h
    refine ⟨?_, Or.inl rfl⟩
    rw [readChunks] at h
    cases h
    rfl
  | succ fuel ih =>
    intro i bs h
    rw [readChunks] at h
    by_cases hguard : baseKey + (i + 1) < U256
    · rw [if_pos hguard] at h
      cases hrec : readChunks map baseKey (i + 1) fuel with
      | none => rw [hrec] at h; exact absurd h (by simp)
      | some restBytes =>
        rw [hrec] at h
        obtain ⟨hlen, hb⟩ := ih (i + 1) restBytes hrec
        simp only [Option.some.injEq] at h
        constructor
        · rw [← h]
          simp [natToBytesBE_length, hlen]
          ring
        · right; omega
    · rw [if_neg hguard] at h
      exact absurd h (by simp)

theorem readList_congr (m1 m2 : Nat → Nat) (baseKey : Nat) :
    ∀ fuel i : Nat, (∀ j, i < j → j ≤ i + fuel → m1 (baseKey + j) = m2 (baseKey + j)) →
    readList m1 baseKey i fuel = readList m2 baseKey i fuel := by
  intro fuel
  induction fuel with
  | zero => intro i _; rfl
  | succ fuel ih =>
    intro i h
    rw [readList, readList, h (i + 1) (by omega) (by omega),
      ih (i + 1) (fun j h1 h2 => h j (by omega) (by omega))]

theorem readList_append (map : Nat → Nat) (baseKey : Nat) :
    ∀ f g i : Nat, readList map baseKey i (f + g) =
      readList map baseKey i f ++ readList map baseKey (i + f) g := by
  intro f
  induction f with
  | zero => intro g i; simp [readList]
  | succ f ih =>
    intro g i
    have : f + 1 + g = (f + g) + 1 := by omega
    rw [this, readList, readList, ih g (i + 1), List.append_assoc]
    have : i + 1 + f = i + (f + 1) := by omega
    rw [this]

theorem readList_stored (baseKey : Nat) : ∀ (fuel i : Nat) (rest : List Nat)
    (m : Nat → Nat),
    (∀ j, j < fuel → m (baseKey + i + j + 1) =
      bytesToNatBE (padChunk ((rest.drop (32 * j)).take 32))) →
    (∀ x ∈ rest, x < 256) → rest.length ≤ 32 * fuel →
    readList m baseKey i fuel = rest ++ List.replicate (32 * fuel - rest.length) 0 := by
  intro fuel
  induction fuel with
  | zero =>
    intro i rest m _ _ hlen
    have : rest = [] := List.eq_nil_of_length_eq_zero (by omega)
    simp [readList, this]
  | succ fuel ih =>
    intro i rest m hslots hb hlen
    rw [readList]
    have h0 := hslots 0 (by omega)
    simp only [Nat.mul_zero, List.drop_zero, Nat.add_zero] at h0
    have htake : (rest.take 32).length ≤ 32 := by
      simp [List.length_take]
    have hchunk : natToBytesBE 32 (m (baseKey + (i + 1))) = padChunk (rest.take 32) := by
      rw [show baseKey + (i + 1) = baseKey + i + 0 + 1 from by omega, h0]
      exact padChunk_roundtrip _ htake (fun x hx => hb x (List.mem_of_mem_take hx))
    have hrec : readList m baseKey (i + 1) fuel =
        rest.drop 32 ++ List.replicate (32 * fuel - (rest.drop 32).length) 0 := by
      refine ih (i + 1) (rest.drop 32) m ?_ ?_ ?_
      · intro j hj
        have hs := hslots (j + 1) (by omega)
        have hkey : baseKey + i + (j + 1) + 1 = baseKey + (i + 1) + j + 1 := by omega
        have hdrop : rest.drop (32 * (j + 1)) = (rest.drop 32).drop (32 * j) := by
          rw [List.drop_drop]
          congr 1
          ring
        rw [hkey, hdrop] at hs
        exact hs
      · intro x hx
        exact hb x (List.mem_of_mem_drop hx)
      · simp [List.length_drop]
        omega
    rw [hchunk, hrec]
    by_cases hge : 32 ≤ rest.length
    · have : padChunk (rest.take 32) = rest.take 32 := by
        apply padChunk_full
        simp [List.length_take]
        omega
      rw [this, ← List.append_assoc, List.take_append_drop]
      congr 2
      simp [List.length_drop]
      omega
    · push_neg at hge
      have htk : rest.take 32 = rest := List.take_of_length_le (by omega)
      have hdp : rest.drop 32 = [] := List.drop_eq_nil_of_le (by omega)
      rw [htk, hdp, padChunk]
      simp only [List.nil_append, List.append_assoc]
      congr 1
      rw [← List.replicate_add]
      congr 1
      simp [List.length_drop]
      omega

/-! ### `storeString` and `readString` -/

theorem storeString_some (map : Nat → Nat) (base : Nat) (v : List Nat)
    (h : base + (v.length + 31) / 32 < U256) :
    ∃ m, storeString map base v = some m := by
  obtain ⟨m, hm, -, -⟩ :=
    storeChunks_spec base ((v.length + 31) / 32) 0 (update map base v.length) v
      (by omega)
  exact ⟨m, hm⟩

theorem storeString_frame (map : Nat → Nat) (base : Nat) (v : List Nat)
    (m : Nat → Nat) (hm : storeString map base v = some m) :
    ∀ k, k < base ∨ base + (v.length + 31) / 32 < k → m k = map k := by
  intro k hk
  rw [storeString] at hm
  rcases storeChunks_bound base _ 0 _ m v hm with h0 | hb
  · rw [h0, storeChunks] at hm
    cases hm
    rw [update_other]
    rcases hk with h | h
    · omega
    · rw [h0] at h; omega
  · obtain ⟨m', hm', hframe, -⟩ := storeChunks_spec base _ 0 (update map base v.length) v hb
    rw [hm'] at hm
    cases hm
    rw [hframe k (by omega), update_other]
    rcases hk with h | h
    · omega
    · omega

theorem storeString_base (map : Nat → Nat) (base : Nat) (v : List Nat)
    (m : Nat → Nat) (hm : storeString map base v = some m) : m base = v.length := by
  rw [storeString] at hm
  rcases storeChunks_bound base _ 0 _ m v hm with h0 | hb
  · rw [h0, storeChunks] at hm
    cases hm
    exact update_same ..
  · obtain ⟨m', hm', hframe, -⟩ := storeChunks_spec base _ 0 (update map base v.length) v hb
    rw [hm'] at hm
    cases hm
    rw [hframe base (Or.inl (by omega))]
    exact update_same ..

theorem storeString_slot (map : Nat → Nat) (base : Nat) (v : List Nat)
    (m : Nat → Nat) (hm : storeString map base v = some m) :
    ∀ j, j < (v.length + 31) / 32 → m (base + j + 1) =
      bytesToNatBE (padChunk ((v.drop (32 * j)).take 32)) := by
  intro j hj
  rw [storeString] at hm
  rcases storeChunks_bound base _ 0 _ m v hm with h0 | hb
  · omega
  · obtain ⟨m', hm', -, hslots⟩ := storeChunks_spec base _ 0 (update map base v.length) v hb
    rw [hm'] at hm
    cases hm
    have := hslots j hj
    simpa using this

theorem storeString_readString (map : Nat → Nat) (base : Nat) (v : List Nat)
    (hb : ∀ x ∈ v, x < 256) (hlen : v.length < 2 ^ 31) (m : Nat → Nat)
    (hm : storeString map base v = some m) : readString m base = some v := by
  have hbase := storeString_base map base v m hm
  have h32 : (2 : Nat) ^ 31 < 2 ^ 32 := by norm_num
  by_cases h0 : v.length = 0
  · have hv : v = [] := List.eq_nil_of_length_eq_zero h0
    rw [readString, if_pos (by rw [hbase, h0]), hv]
  · rw [storeString] at hm
    have hchunks : 0 < (v.length + 31) / 32 := by omega
    rcases storeChunks_bound base _ 0 _ m v hm with hz | hbnd
    · omega
    · obtain ⟨m', hm', hframe, hslots⟩ :=
        storeChunks_spec base _ 0 (update map base v.length) v hbnd
      rw [hm'] at hm
      cases hm
      have hmod : v.length % 2 ^ 32 = v.length := Nat.mod_eq_of_lt (by omega)
      simp only [readString, hbase, hmod, if_neg h0, if_pos hlen]
      rw [readChunks_eq_readList m base _ 0 (by omega),
        readList_stored base _ 0 v m (by simpa using hslots) hb (by omega)]
      have htake : (v ++ List.replicate (32 * ((v.length + 31) / 32) - v.length) 0).take
          v.length = v := List.take_left v _
      simp [htake]

theorem readString_some_len (m : Nat → Nat) (base : Nat) (v : List Nat)
    (h : readString m base = some v) : v.length < 2 ^ 31 := by
  rw [readString] at h
  by_cases h0 : m base = 0
  · rw [if_pos h0] at h
    cases h
    norm_num
  · rw [if_neg h0] at h
    by_cases hg : m base % 2 ^ 32 < 2 ^ 31
    · rw [if_pos hg] at h
      cases hrc : readChunks m base 0 ((m base % 2 ^ 32 + 31) / 32) with
      | none => rw [hrc] at h; exact absurd h (by simp)
      | some bs =>
        rw [hrc] at h
        simp only [Option.some.injEq] at h
        rw [← h]
        simp only [List.length_take]
        omega
    · rw [if_neg hg] at h
      exact absurd h (by simp)

theorem readString_stable (m1 m2 : Nat → Nat) (base : Nat) (v : List Nat)
    (h1 : readString m1 base = some v)
    (hw : ∀ j, j ≤ (v.length + 31) / 32 → m2 (base + j) = m1 (base + j)) :
    readString m2 base = some v := by
  have hbase : m2 base = m1 base := by simpa using hw 0 (by omega)
  rw [readString] at h1 ⊢
  by_cases h0 : m1 base = 0
  · rw [if_pos h0] at h1
    rw [hbase, if_pos h0]
    exact h1
  · rw [if_neg h0] at h1
    rw [hbase, if_neg h0]
    by_cases hg : m1 base % 2 ^ 32 < 2 ^ 31
    · rw [if_pos hg] at h1 ⊢
      cases hrc : readChunks m1 base 0 ((m1 base % 2 ^ 32 + 31) / 32) with
      | none => rw [hrc] at h1; exact absurd h1 (by simp)
      | some bs =>
        rw [hrc] at h1
        simp only [Option.some.injEq] at h1
        obtain ⟨hlen32, -⟩ := readChunks_none_or_len m1 base _ 0 bs hrc
        have hveq : v.length = m1 base % 2 ^ 32 := by
          rw [← h1]
          simp only [List.length_take]
          omega
        have hcongr : readChunks m2 base 0 ((m1 base % 2 ^ 32 + 31) / 32) = some bs := by
          rw [readChunks_congr m2 m1 base _ 0
            (fun j hj1 hj2 => hw j (by omega))]
          exact hrc
        rw [hcongr]
        simpa using h1
    · rw [if_neg hg] at h1
      exact absurd h1 (by simp)

theorem readString_eq_of_window (m1 m2 : Nat → Nat) (base : Nat)
    (h : ∀ j, j ≤ 2 ^ 26 → m1 (base + j) = m2 (base + j)) :
    readString m1 base = readString m2 base := by
  have hbase : m1 base = m2 base := by simpa using h 0 (by omega)
  simp only [readString, hbase]
  by_cases h0 : m2 base = 0
  · simp [h0]
  · simp only [if_neg h0]
    by_cases hg : m2 base % 2 ^ 32 < 2 ^ 31
    · simp only [if_pos hg]
      rw [readChunks_congr m1 m2 base _ 0 (fun j hj1 hj2 => h j (by omega))]
    · simp only [if_neg hg]

/-! ### The key derivation `cidToKey` -/

theorem cidMix_eq (bs : List Nat) : ∀ i hi lo,
    cidMix bs i hi lo = (bs.foldl hiStep hi, loMixAux bs i lo) := by
  induction bs with
  | nil => intro i hi lo; rfl
  | cons b bs ih =>
    intro i hi lo
    rw [cidMix, List.foldl_cons, loMixAux]
    exact ih (i + 1) (hiStep hi b) (loStep i lo b)

theorem foldl_hiStep_lt (bs : List Nat) : ∀ h : Nat, h < U64 →
    bs.foldl hiStep h < U64 := by
  induction bs with
  | nil => intro h hh; simpa using hh
  | cons b bs ih =>
    intro h _
    rw [List.foldl_cons]
    exact ih (hiStep h b) (Nat.mod_lt _ (by norm_num [U64]))

theorem hiMix_lt (cid : List Nat) : hiMix cid < U64 :=
  foldl_hiStep_lt cid fnvOffset (by norm_num [fnvOffset, U64])

theorem loMixAux_lt (bs : List Nat) : ∀ i l : Nat, l < U64 →
    loMixAux bs i l < U64 := by
  induction bs with
  | nil => intro i l hl; simpa [loMixAux] using hl
  | cons b bs ih =>
    intro i l _
    rw [loMixAux]
    exact ih (i + 1) (loStep i l b) (Nat.mod_lt _ (by norm_num [U64]))

theorem loMix_lt (cid : List Nat) : loMix cid < U64 :=
  loMixAux_lt cid 0 fnvPrime (by norm_num [fnvPrime, U64])

theorem cidToKey_eq_assemble (cid : List Nat) :
    cidToKey cid = assembleKey (hiMix cid) (loMix cid) := by
  simp [cidToKey, cidMix_eq, hiMix, loMix, assembleKey]

theorem comp64_eq (x : Nat) (hx : x < U64) : comp64 x = U64 - 1 - x := by
  simp [comp64, Nat.mod_eq_of_lt hx]

theorem assembleKey_le (hi lo : Nat) (hh : hi < U64) (hl : lo < U64) :
    assembleKey hi lo ≤ 2 ^ 256 - 2 ^ 128 := by
  rw [assembleKey, comp64_eq hi hh, comp64_eq lo hl]
  simp only [U64]
  have h1 : hi * 2 ^ 64 + (2 ^ 64 - 1 - hi) * 2 ^ 128 ≤ (2 ^ 64 - 1) * 2 ^ 128 := by
    have ha : hi * 2 ^ 64 ≤ hi * 2 ^ 128 :=
      Nat.mul_le_mul_left hi (by norm_num)
    have hb : hi * 2 ^ 128 + (2 ^ 64 - 1 - hi) * 2 ^ 128 = (2 ^ 64 - 1) * 2 ^ 128 := by
      rw [← Nat.add_mul]
      congr 1
      simp only [U64] at hh
      omega
    omega
  have h2 : lo + (2 ^ 64 - 1 - lo) * 2 ^ 192 ≤ (2 ^ 64 - 1) * 2 ^ 192 := by
    have ha : lo ≤ lo * 2 ^ 192 := Nat.le_mul_of_pos_right lo (by norm_num)
    have hb : lo * 2 ^ 192 + (2 ^ 64 - 1 - lo) * 2 ^ 192 = (2 ^ 64 - 1) * 2 ^ 192 := by
      rw [← Nat.add_mul]
      congr 1
      simp only [U64] at hl
      omega
    omega
  have h3 : (2 ^ 64 - 1) * 2 ^ 128 + (2 ^ 64 - 1) * 2 ^ 192 = 2 ^ 256 - 2 ^ 128 := by
    norm_num
  omega

theorem assembleKey_lo (hi lo : Nat) (hh : hi < U64) (hl : lo < U64) :
    assembleKey hi lo % 2 ^ 64 = lo := by
  rw [assembleKey, comp64_eq hi hh, comp64_eq lo hl]
  rw [show lo + hi * 2 ^ 64 + (U64 - 1 - hi) * 2 ^ 128 + (U64 - 1 - lo) * 2 ^ 192 =
      lo + 2 ^ 64 * (hi + (U64 - 1 - hi) * 2 ^ 64 + (U64 - 1 - lo) * 2 ^ 128) from by
    ring]
  rw [Nat.add_mul_mod_self_left]
  exact Nat.mod_eq_of_lt (by simpa [U64] using hl)

theorem assembleKey_hiPart (hi lo : Nat) (hh : hi < U64) (hl : lo < U64) :
    assembleKey hi lo / 2 ^ 64 % 2 ^ 64 = hi := by
  rw [assembleKey, comp64_eq hi hh, comp64_eq lo hl]
  rw [show lo + hi * 2 ^ 64 + (U64 - 1 - hi) * 2 ^ 128 + (U64 - 1 - lo) * 2 ^ 192 =
      lo + 2 ^ 64 * (hi + 2 ^ 64 * ((U64 - 1 - hi) + (U64 - 1 - lo) * 2 ^ 64)) from by
    ring]
  rw [Nat.add_mul_div_left _ _ (by norm_num : (0:Nat) < 2 ^ 64),
    Nat.div_eq_of_lt (by simpa [U64] using hl), Nat.zero_add,
    Nat.add_mul_mod_self_left]
  exact Nat.mod_eq_of_lt (by simpa [U64] using hh)

theorem assembleKey_cast (hi lo : Nat) (hh : hi < U64) (hl : lo < U64) :
    ((assembleKey hi lo : Nat) : Int) =
      (lo : Int) + (hi : Int) * 2 ^ 64 + (2 ^ 64 - 1 - (hi : Int)) * 2 ^ 128 +
        (2 ^ 64 - 1 - (lo : Int)) * 2 ^ 192 := by
  rw [assembleKey, comp64_eq hi hh, comp64_eq lo hl]
  simp only [U64] at hh hl ⊢
  omega

theorem int_spread (P a b d : Int) (hP : 2 ≤ P) (ha1 : -P < a) (ha2 : a < P)
    (hd0 : 0 < d) (hd1 : d < P - 1)
    (heq : a + b * P - b * P ^ 2 - a * P ^ 3 = d) : False := by
  have hP0 : (0 : Int) < P := by linarith
  obtain ⟨t, ht⟩ : P ∣ (a - d) := ⟨-b + b * P + a * P ^ 2, by linear_combination heq⟩
  have ht1 : t ≤ 0 := by
    by_contra hc
    push_neg at hc
    have h1 : (1 : Int) ≤ t := hc
    have h2 : P * 1 ≤ P * t := mul_le_mul_of_nonneg_left h1 hP0.le
    linarith
  have ht2 : -1 ≤ t := by
    by_contra hc
    push_neg at hc
    have h1 : t ≤ -2 := by linarith
    have h2 : P * t ≤ P * (-2) := mul_le_mul_of_nonneg_left h1 hP0.le
    linarith
  have hcop : IsCoprime (P - 1) P := ⟨-1, 1, by ring⟩
  have htc : t = 0 ∨ t = -1 := by omega
  rcases htc with ht0 | htm1
  · have ha_eq : a = d := by rw [ht0, mul_zero] at ht; linarith
    have hz : P * (b * (1 - P) - d * P ^ 2) = 0 := by
      linear_combination heq + (P ^ 3 - 1) * ha_eq
    have hkey2 : b * (1 - P) - d * P ^ 2 = 0 := by
      rcases mul_eq_zero.mp hz with h | h
      · exact absurd h (by linarith)
      · exact h
    have hdvd : (P - 1) ∣ d * P ^ 2 := ⟨-b, by linear_combination -hkey2⟩
    have hdd : (P - 1) ∣ d := (hcop.pow_right).dvd_of_dvd_mul_right hdvd
    have := Int.le_of_dvd hd0 hdd
    linarith
  · have ha_eq : a = d - P := by rw [htm1] at ht; linarith
    have hz : P * (b * (1 - P) - (1 + d * P ^ 2 - P ^ 3)) = 0 := by
      linear_combination heq + (P ^ 3 - 1) * ha_eq
    have hkey3 : b * (1 - P) - (1 + d * P ^ 2 - P ^ 3) = 0 := by
      rcases mul_eq_zero.mp hz with h | h
      · exact absurd h (by linarith)
      · exact h
    have hda : (P - 1) ∣ (1 + d * P ^ 2 - P ^ 3) := ⟨-b, by linear_combination -hkey3⟩
    have hdb : (P - 1) ∣ d * (P ^ 2 - 1) := ⟨d * (P + 1), by ring⟩
    have hdc : (P - 1) ∣ (P ^ 3 - 1) := ⟨P ^ 2 + P + 1, by ring⟩
    have hdd : (P - 1) ∣ d := by
      have e : d = (1 + d * P ^ 2 - P ^ 3) - d * (P ^ 2 - 1) + (P ^ 3 - 1) := by ring
      rw [e]
      exact dvd_add (dvd_sub hda hdb) hdc
    have := Int.le_of_dvd hd0 hdd
    linarith

theorem cidToKey_add_ne (c1 c2 : List Nat) (d : Nat) (hd0 : 0 < d)
    (hdU : d < U64 - 1) : cidToKey c1 + d ≠ cidToKey c2 := by
  intro heq
  rw [cidToKey_eq_assemble, cidToKey_eq_assemble] at heq
  have hh1 := hiMix_lt c1
  have hl1 := loMix_lt c1
  have hh2 := hiMix_lt c2
  have hl2 := loMix_lt c2
  have hI : ((assembleKey (hiMix c1) (loMix c1) : Nat) : Int) + (d : Int) =
      ((assembleKey (hiMix c2) (loMix c2) : Nat) : Int) := by exact_mod_cast heq
  rw [assembleKey_cast _ _ hh1 hl1, assembleKey_cast _ _ hh2 hl2] at hI
  have key : ((loMix c2 : Int) - loMix c1) + ((hiMix c2 : Int) - hiMix c1) * 2 ^ 64
      - ((hiMix c2 : Int) - hiMix c1) * (2 ^ 64) ^ 2
      - ((loMix c2 : Int) - loMix c1) * (2 ^ 64) ^ 3 = (d : Int) := by
    linear_combination -hI
  have hb1 : ((loMix c1 : Int)) < 2 ^ 64 := by
    have := hl1; simp only [U64] at this; exact_mod_cast this
  have hb2 : ((loMix c2 : Int)) < 2 ^ 64 := by
    have := hl2; simp only [U64] at this; exact_mod_cast this
  refine int_spread (2 ^ 64) ((loMix c2 : Int) - loMix c1)
    ((hiMix c2 : Int) - hiMix c1) (d : Int) (by norm_num) ?_ ?_ ?_ ?_ key
  · have : (0 : Int) ≤ (loMix c2 : Int) := Int.natCast_nonneg _
    linarith
  · have : (0 : Int) ≤ (loMix c1 : Int) := Int.natCast_nonneg _
    linarith
  · exact_mod_cast hd0
  · have : (d : Int) < ((U64 - 1 : Nat) : Int) := by exact_mod_cast hdU
    have he : ((U64 - 1 : Nat) : Int) = 2 ^ 64 - 1 := by
      simp only [U64]
      omega
    linarith [he ▸ this]

theorem cidToKey_le (cid : List Nat) : cidToKey cid ≤ 2 ^ 256 - 2 ^ 128 := by
  rw [cidToKey_eq_assemble]
  exact assembleKey_le _ _ (hiMix_lt cid) (loMix_lt cid)

theorem cidToKey_add_cancel (c1 c2 : List Nat) (x y : Nat) (hx : x ≤ 2 ^ 30)
    (hy : y ≤ 2 ^ 30) (h : cidToKey c1 + x = cidToKey c2 + y) :
    cidToKey c1 = cidToKey c2 ∧ x = y := by
  have hU : (2 : Nat) ^ 30 < U64 - 1 := by norm_num [U64]
  rcases Nat.lt_trichotomy x y with hlt | heqxy | hgt
  · exfalso
    have he : cidToKey c2 + (y - x) = cidToKey c1 := by omega
    exact cidToKey_add_ne c2 c1 (y - x) (by omega) (by omega) he
  · constructor
    · omega
    · exact heqxy
  · exfalso
    have he : cidToKey c1 + (x - y) = cidToKey c2 := by omega
    exact cidToKey_add_ne c1 c2 (x - y) (by omega) (by omega) he

theorem hiStep_parity (h b : Nat) : hiStep h b % 2 = (h % 2) ^^^ (b % 2) := by
  rw [hiStep]
  rw [Nat.mod_mod_of_dvd _ (by norm_num [U64] : 2 ∣ U64)]
  rw [Nat.mul_mod, show fnvPrime % 2 = 1 from by norm_num [fnvPrime], Nat.mul_one]
  rw [Nat.mod_mod_of_dvd _ dvd_rfl]
  rw [← Nat.and_one_is_mod (h ^^^ b), Nat.and_xor_distrib_right,
    Nat.and_one_is_mod, Nat.and_one_is_mod]

theorem hiMix_replicate_one_parity : ∀ (n : Nat) (h : Nat),
    (List.replicate n 1).foldl hiStep h % 2 = (h + n) % 2 := by
  intro n
  induction n with
  | zero => intro h; simp
  | succ n ih =>
    intro h
    rw [List.replicate_succ, List.foldl_cons, ih (hiStep h 1)]
    have hp := hiStep_parity h 1
    rcases Nat.mod_two_eq_zero_or_one h with h0 | h1
    · rw [h0] at hp
      norm_num at hp
      omega
    · rw [h1] at hp
      norm_num at hp
      omega

theorem cexKeys_ne : cidToKey cexCid ≠ cidToKey [50] := by
  intro heq
  rw [cidToKey_eq_assemble, cidToKey_eq_assemble] at heq
  have h1 := congrArg (fun x => x / 2 ^ 64 % 2 ^ 64) heq
  simp only [assembleKey_hiPart _ _ (hiMix_lt _) (loMix_lt _)] at h1
  have p1 : hiMix cexCid % 2 = 0 := by
    rw [hiMix, cexCid, hiMix_replicate_one_parity]
    norm_num [fnvOffset]
  have p2 : hiMix [50] % 2 = 1 := by decide
  omega

/-! ### Characterisation of `registerFile` -/

theorem registerFile_ok_elim (s : State) (sender : List Nat) (blk ts : Nat)
    (cid name : List Nat) (size : Nat) (s' : State)
    (h : registerFile s sender blk ts cid name size = .ok s') :
    s.paused = false ∧ cid ≠ [] ∧ name ≠ [] ∧ size ≠ 0 ∧
    s.fileExists (cidToKey cid) ≠ 1 ∧
    s.totalFiles * 256 < U256 ∧ s.totalFiles + 1 < U256 ∧
    ∃ nameMap cidMap,
      storeString s.fileNameChunks (cidToKey cid) name = some nameMap ∧
      storeString s.cidChunks (s.totalFiles * 256) cid = some cidMap ∧
      s' = { paused := s.paused, totalFiles := s.totalFiles + 1,
             fileSizes := update s.fileSizes (cidToKey cid) size,
             fileUploaders := update s.fileUploaders (cidToKey cid) (bytesToNatBE sender),
             fileBlocks := update s.fileBlocks (cidToKey cid) blk,
             fileTimestamps := update s.fileTimestamps (cidToKey cid) ts,
             fileExists := update s.fileExists (cidToKey cid) 1,
             fileNameChunks := nameMap, cidChunks := cidMap } := by
  simp only [registerFile] at h
  split at h
  · exact absurd h (by simp)
  · rename_i hp
    split at h
    · exact absurd h (by simp)
    · rename_i hc
      split at h
      · exact absurd h (by simp)
      · rename_i hn
        split at h
        · exact absurd h (by simp)
        · rename_i hs
          split at h
          · exact absurd h (by simp)
          · rename_i he
            split at h
            · exact absurd h (by simp)
            · rename_i nameMap hnm
              by_cases hmul : s.totalFiles * 256 < U256
              · rw [if_pos hmul] at h
                split at h
                · exact absurd h (by simp)
                · rename_i cidMap hcm
                  by_cases hadd : s.totalFiles + 1 < U256
                  · rw [if_pos hadd] at h
                    simp only [Except.ok.injEq] at h
                    refine ⟨by simpa using hp, fun he2 => hc (by simp [he2]),
                      fun hn2 => hn (by simp [hn2]), hs, he, hmul, hadd,
                      nameMap, cidMap, hnm, hcm, h.symm⟩
                  · rw [if_neg hadd] at h
                    exact absurd h (by simp)
              · rw [if_neg hmul] at h
                exact absurd h (by simp)

theorem registerFile_ok_intro (s : State) (sender : List Nat) (blk ts : Nat)
    (cid name : List Nat) (size : Nat)
    (hp : s.paused = false) (hc : cid ≠ []) (hn : name ≠ []) (hs : size ≠ 0)
    (he : s.fileExists (cidToKey cid) ≠ 1)
    (hnl : name.length < 2 ^ 31)
    (hmul : s.totalFiles * 256 < U256)
    (hcb : s.totalFiles * 256 + (cid.length + 31) / 32 < U256)
    (hadd : s.totalFiles + 1 < U256) :
    ∃ s', registerFile s sender blk ts cid name size = .ok s' := by
  have hnb : cidToKey cid + (name.length + 31) / 32 < U256 := by
    have h1 := cidToKey_le cid
    have h2 : (name.length + 31) / 32 < 2 ^ 26 + 1 := by omega
    simp only [U256]
    omega
  obtain ⟨nameMap, hnm⟩ := storeString_some s.fileNameChunks (cidToKey cid) name hnb
  obtain ⟨cidMap, hcm⟩ := storeString_some s.cidChunks (s.totalFiles * 256) cid hcb
  have hc0 : ¬cid.length = 0 := by simpa using hc
  have hn0 : ¬name.length = 0 := by simpa using hn
  refine ⟨{ paused := s.paused, totalFiles := s.totalFiles + 1,
            fileSizes := update s.fileSizes (cidToKey cid) size,
            fileUploaders := update s.fileUploaders (cidToKey cid) (bytesToNatBE sender),
            fileBlocks := update s.fileBlocks (cidToKey cid) blk,
            fileTimestamps := update s.fileTimestamps (cidToKey cid) ts,
            fileExists := update s.fileExists (cidToKey cid) 1,
            fileNameChunks := nameMap, cidChunks := cidMap }, ?_⟩
  simp [registerFile, hp, hc0, hn0, hs, he, hnm, hcm, hmul, hadd]

theorem registerFile_already (s : State) (sender : List Nat) (blk ts : Nat)
    (cid name : List Nat) (size : Nat)
    (hp : s.paused = false) (hc : cid ≠ []) (hn : name ≠ []) (hs : size ≠ 0)
    (he : s.fileExists (cidToKey cid) = 1) :
    registerFile s sender blk ts cid name size = .error .AlreadyRegistered := by
  have hc0 : ¬cid.length = 0 := by simpa using hc
  have hn0 : ¬name.length = 0 := by simpa using hn
  simp [registerFile, hp, hc0, hn0, hs, he]

theorem registerFile_paused (s : State) (sender : List Nat) (blk ts : Nat)
    (cid name : List Nat) (size : Nat) (hp : s.paused = true) :
    registerFile s sender blk ts cid name size = .error .Paused := by
  simp [registerFile, hp]

theorem registerFile_not_paused_ne (s : State) (sender : List Nat) (blk ts : Nat)
    (cid name : List Nat) (size : Nat) (hp : s.paused = false) :
    registerFile s sender blk ts cid name size ≠ .error .Paused := by
  intro hcontra
  simp only [registerFile, hp, Bool.false_eq_true, if_false] at hcontra
  repeat' split at hcontra
  all_goals simp_all

theorem registerFile_mul_overflow (s : State) (sender : List Nat) (blk ts : Nat)
    (cid name : List Nat) (size : Nat)
    (hp : s.paused = false) (hc : cid ≠ []) (hn : name ≠ []) (hs : size ≠ 0)
    (he : s.fileExists (cidToKey cid) ≠ 1) (hnl : name.length < 2 ^ 31)
    (hmul : U256 ≤ s.totalFiles * 256) :
    registerFile s sender blk ts cid name size = .error .MathOverflow := by
  have hnb : cidToKey cid + (name.length + 31) / 32 < U256 := by
    have h1 := cidToKey_le cid
    have h2 : (name.length + 31) / 32 < 2 ^ 26 + 1 := by omega
    simp only [U256]
    omega
  obtain ⟨nameMap, hnm⟩ := storeString_some s.fileNameChunks (cidToKey cid) name hnb
  have hc0 : ¬cid.length = 0 := by simpa using hc
  have hn0 : ¬name.length = 0 := by simpa using hn
  have hm : ¬s.totalFiles * 256 < U256 := by omega
  simp [registerFile, hp, hc0, hn0, hs, he, hnm, hm]

theorem registerStep_of_ok (s : State) (sender : List Nat) (blk ts : Nat)
    (cid name : List Nat) (size : Nat) (s' : State)
    (h : registerFile s sender blk ts cid name size = .ok s') :
    registerStep s sender blk ts cid name size = s' := by
  simp [registerStep, h]

theorem registerStep_of_error (s : State) (sender : List Nat) (blk ts : Nat)
    (cid name : List Nat) (size : Nat) (e : Err)
    (h : registerFile s sender blk ts cid name size = .error e) :
    registerStep s sender blk ts cid name size = s := by
  simp [registerStep, h]

/-! ### The reachability invariants -/

theorem reachable_invA (s : State) (log : List (List Nat)) (h : Reachable s log) :
    InvA s log := by
  induction h with
  | init =>
    refine ⟨rfl, by norm_num, ?_, ?_, ?_⟩
    · intro c hc; exact absurd hc (by simp)
    · intro c hc; exact absurd hc (by simp)
    · intro k _; rfl
  | register s log sender blk ts cid name size s' hr hcb hcl hnb hnl hok ih =>
    obtain ⟨ih1, ih2, ih3, ih4, ih5⟩ := ih
    obtain ⟨hp, hc, hn, hs, he, hmul, hadd, nameMap, cidMap, hnm, hcm, hs'⟩ :=
      registerFile_ok_elim _ _ _ _ _ _ _ _ hok
    subst hs'
    refine ⟨?_, ?_, ?_, ?_, ?_⟩
    · simp [ih1]
    · have hm : log.length * 256 < 2 ^ 256 := by
        rw [← ih1]
        simpa [U256] using hmul
      simp only [List.length_append, List.length_singleton]
      omega
    · intro c hcmem
      rcases List.mem_append.mp hcmem with hmem | hmem
      · exact ih3 c hmem
      · have hce : c = cid := by simpa using hmem
        subst hce
        exact ⟨hc, hcl, hcb⟩
    · intro c hcmem
      rcases List.mem_append.mp hcmem with hmem | hmem
      · obtain ⟨hex, nm, hnmread⟩ := ih4 c hmem
        have hkne : cidToKey c ≠ cidToKey cid := fun hkeq => he (hkeq ▸ hex)
        constructor
        · show update s.fileExists (cidToKey cid) 1 (cidToKey c) = 1
          rw [update_other _ _ _ _ hkne]
          exact hex
        · refine ⟨nm, ?_⟩
          apply readString_stable s.fileNameChunks nameMap (cidToKey c) nm hnmread
          intro j hj
          apply storeString_frame s.fileNameChunks (cidToKey cid) name nameMap hnm
          have hwnm : (nm.length + 31) / 32 ≤ 2 ^ 26 := by
            have := readString_some_len _ _ _ hnmread
            omega
          have hwname : (name.length + 31) / 32 ≤ 2 ^ 26 := by omega
          by_contra hcon
          push_neg at hcon
          obtain ⟨h1, h2⟩ := hcon
          have hcancel := cidToKey_add_cancel c cid j (cidToKey c + j - cidToKey cid)
            (by omega) (by omega) (by omega)
          exact hkne hcancel.1
      · have hce : c = cid := by simpa using hmem
        subst hce
        constructor
        · exact update_same ..
        · exact ⟨name, storeString_readString _ _ _ hnb hnl nameMap hnm⟩
    · intro k hk
      have hkne : cidToKey cid ≠ k := hk cid (by simp)
      show update s.fileExists (cidToKey cid) 1 k = 0
      rw [update_other _ _ _ _ (Ne.symm hkne)]
      exact ih5 k (fun c hc2 => hk c (by simp [hc2]))
  | setPaused s log b hr ih =>
    obtain ⟨ih1, ih2, ih3, ih4, ih5⟩ := ih
    exact ⟨ih1, ih2, ih3, ih4, ih5⟩

theorem reachable_invB (s : State) (log : List (List Nat)) (h : Reachable s log) :
    (∀ c ∈ log, c.length ≤ 8160) → InvB s log := by
  induction h with
  | init => intro _ i hi; simp at hi
  | register s log sender blk ts cid name size s' hr hcb hcl hnb hnl hok ih =>
    intro hbound
    obtain ⟨ih1, ih2, ih3, ih4, ih5⟩ := reachable_invA s log hr
    have hboundOld : ∀ c ∈ log, c.length ≤ 8160 := fun c hc2 => hbound c (by simp [hc2])
    have hcid8160 : cid.length ≤ 8160 := hbound cid (by simp)
    have ihB := ih hboundOld
    obtain ⟨hp, hc, hn, hs, he, hmul, hadd, nameMap, cidMap, hnm, hcm, hs'⟩ :=
      registerFile_ok_elim _ _ _ _ _ _ _ _ hok
    subst hs'
    intro i hi
    rw [List.length_append, List.length_singleton] at hi
    by_cases hilt : i < log.length
    · have hold := ihB i hilt
      have hgetD : (log ++ [cid]).getD i [] = log.getD i [] := by
        rw [List.getD_eq_getElem?_getD, List.getD_eq_getElem?_getD,
          List.getElem?_append_left hilt]
      rw [hgetD]
      apply readString_stable s.cidChunks cidMap (i * 256) _ hold
      intro j hj
      apply storeString_frame s.cidChunks (s.totalFiles * 256) cid cidMap hcm
      left
      have hmemD : log.getD i [] ∈ log := by
        rw [List.getD_eq_getElem?_getD, List.getElem?_eq_getElem hilt]
        simp only [Option.getD_some]
        exact List.getElem_mem hilt
      have hw : (log.getD i []).length ≤ 8160 := hboundOld _ hmemD
      have hj255 : j ≤ 255 := by omega
      have h1 : s.totalFiles = log.length := ih1
      omega
    · have hieq : i = log.length := by omega
      subst hieq
      have hgetD : (log ++ [cid]).getD log.length [] = cid := by
        rw [List.getD_eq_getElem?_getD, List.getElem?_append_right (le_refl _)]
        simp
      rw [hgetD, ← ih1]
      exact storeString_readString s.cidChunks (s.totalFiles * 256) cid hcb hcl cidMap hcm
  | setPaused s log b hr ih =>
    intro hbound i hi
    exact ih hbound i hi

/-! ### The claims -/

/-- **C1**: chunked-string round-trip — for every string `s` (as its UTF-8
byte list, including the empty string and strings whose byte length is an
exact multiple of 32) and every base key, reading back via
`readString(map, k)` after a completed `storeString(map, k, s)` returns
exactly `s`.  The byte-validity and length hypotheses hold for every
AssemblyScript string. -/
theorem claim_roundtrip (map : Nat → Nat) (k : Nat) (s : List Nat)
    (hbytes : ∀ b ∈ s, b < 256) (hlen : s.length < 2 ^ 31) (m : Nat → Nat)
    (hstore : storeString map k s = some m) : readString m k = some s :=
  storeString_readString map k s hbytes hlen m hstore

/-- Witness for C1: storing the two-byte string `[104, 105]` at base key 5
in the empty map and reading it back. -/
theorem claim_roundtrip_witness :
    readString (update (update (fun _ => 0) 5 2) 6
      (bytesToNatBE (padChunk [104, 105]))) 5 = some [104, 105] :=
  claim_roundtrip (fun _ => 0) 5 [104, 105] (by decide) (by norm_num) _ (by rfl)

/-- **C7**: `cidToKey` is a pure deterministic function of the identifier's
byte list, computed by two independent 64-bit accumulators (`hiMix` folds
the bytes alone, `loMix` folds bytes plus positions), each seeded with a
distinct constant and stepped by XOR-then-multiply with an odd multiplier,
assembled into the 256-bit key together with the bitwise complement of each
accumulator (`assembleKey`/`comp64`). -/
theorem claim_key_derivation (cid : List Nat) :
    cidToKey cid = assembleKey (hiMix cid) (loMix cid) ∧
    hiMix cid = cid.foldl hiStep fnvOffset ∧
    loMix cid = loMixAux cid 0 fnvPrime ∧
    hiMix cid < U64 ∧ loMix cid < U64 ∧
    fnvOffset ≠ fnvPrime ∧ fnvPrime % 2 = 1 ∧ fnvOffset % 2 = 1 :=
  ⟨cidToKey_eq_assemble cid, rfl, rfl, hiMix_lt cid, loMix_lt cid,
    by decide, by decide, by decide⟩

/-- **C3**: monotone count — the count is 0 at deployment, increases by
exactly 1 on every successful registration, is unchanged by every failed
registration (revert semantics), and never decreases under any operation. -/
theorem claim_monotone_count (s : State) (sender deployer : List Nat)
    (blk ts : Nat) (cid name : List Nat) (size : Nat) :
    initState.totalFiles = 0 ∧
    (∀ s', registerFile s sender blk ts cid name size = .ok s' →
      s'.totalFiles = s.totalFiles + 1) ∧
    (∀ e, registerFile s sender blk ts cid name size = .error e →
      (registerStep s sender blk ts cid name size).totalFiles = s.totalFiles) ∧
    s.totalFiles ≤ (registerStep s sender blk ts cid name size).totalFiles ∧
    (pauseStep s sender deployer).totalFiles = s.totalFiles ∧
    (unpauseStep s sender deployer).totalFiles = s.totalFiles ∧
    getTotalFiles s = s.totalFiles := by
  refine ⟨rfl, ?_, ?_, ?_, ?_, ?_, rfl⟩
  · intro s' h
    obtain ⟨-, -, -, -, -, -, -, nameMap, cidMap, -, -, hs'⟩ :=
      registerFile_ok_elim _ _ _ _ _ _ _ _ h
    rw [hs']
  · intro e h
    rw [registerStep_of_error _ _ _ _ _ _ _ _ h]
  · cases h : registerFile s sender blk ts cid name size with
    | ok s' =>
      rw [registerStep_of_ok _ _ _ _ _ _ _ _ h]
      obtain ⟨-, -, -, -, -, -, -, nameMap, cidMap, -, -, hs'⟩ :=
        registerFile_ok_elim _ _ _ _ _ _ _ _ h
      rw [hs']
      simp
    | error e =>
      rw [registerStep_of_error _ _ _ _ _ _ _ _ h]
  · by_cases h : sender = deployer <;> simp [pauseStep, pause, h]
  · by_cases h : sender = deployer <;> simp [unpauseStep, unpause, h]

/-- Witness for C3: a concrete successful registration from the initial
state bumps the count from 0 to 1. -/
theorem claim_monotone_count_witness :
    (registerStep initState devAddr 1 2 [99] [97] 100).totalFiles =
      initState.totalFiles + 1 := by
  have h := (claim_monotone_count initState devAddr devAddr 1 2 [99] [97] 100).2.1
  exact registerStep_of_ok initState devAddr 1 2 [99] [97] 100 _ rfl ▸
    h (registerStep initState devAddr 1 2 [99] [97] 100) (by rfl)

/-- **C5**: pause gating — while paused every `registerFile` call fails with
`Paused`; once unpaused it never fails with `Paused`; and the read
operations are insensitive to the pause flag (they never consult the
gate). -/
theorem claim_pause_gating (s : State) (sender : List Nat) (blk ts : Nat)
    (cid name : List Nat) (size i : Nat) :
    (s.paused = true → registerFile s sender blk ts cid name size = .error .Paused) ∧
    (s.paused = false → registerFile s sender blk ts cid name size ≠ .error .Paused) ∧
    (∀ b, getFile { s with paused := b } cid = getFile s cid) ∧
    (∀ b, checkFileExists { s with paused := b } cid = checkFileExists s cid) ∧
    (∀ b, getTotalFiles { s with paused := b } = getTotalFiles s) ∧
    (∀ b, getFileByIndex { s with paused := b } i = getFileByIndex s i) ∧
    (∀ b, getIsPaused { s with paused := b } = b) :=
  ⟨registerFile_paused s sender blk ts cid name size,
    registerFile_not_paused_ne s sender blk ts cid name size,
    fun _ => rfl, fun _ => rfl, fun _ => rfl, fun _ => rfl, fun _ => rfl⟩

/-- Witness for C5: on the paused initial state a concrete register call
fails with `Paused`. -/
theorem claim_pause_gating_witness :
    registerFile { initState with paused := true } devAddr 1 2 [99] [97] 100 =
      .error .Paused :=
  (claim_pause_gating { initState with paused := true } devAddr 1 2 [99] [97] 100 0).1 rfl

/-- **C6**: miss semantics — in any reachable state, `getFile` on an
identifier whose derived key was never claimed by a registered identifier
(in particular any never-registered identifier, absent key collisions —
which the spec assumes away) returns `exists = false` with an empty name and
all scalar fields zero, and never raises an error. -/
theorem claim_miss_semantics (s : State) (log : List (List Nat)) (cid : List Nat)
    (hr : Reachable s log)
    (hmiss : ∀ c ∈ log, cidToKey c ≠ cidToKey cid) :
    getFile s cid = .ok { fileName := [], fileSize := 0, uploader := 0,
                          blockNumber := 0, timestamp := 0, found := false } := by
  obtain ⟨-, -, -, -, ih5⟩ := reachable_invA s log hr
  have h0 : s.fileExists (cidToKey cid) = 0 := ih5 _ hmiss
  simp [getFile, h0]

/-- Witness for C6: looking up `[97]` in the freshly deployed store. -/
theorem claim_miss_semantics_witness :
    getFile initState [97] = .ok { fileName := [], fileSize := 0, uploader := 0,
                                   blockNumber := 0, timestamp := 0, found := false } :=
  claim_miss_semantics initState [] [97] Reachable.init (by simp)

/-- **C8**: overflow fails closed — on success the count increment is exact
(totalFiles goes up by exactly 1, with both `SafeMath` guards established);
when the ordinal stride multiplication `count * 256` in `registerFile`
would exceed the 256-bit range the call fails with the `SafeMath` revert;
and when `index * 256` in `getFileByIndex` would exceed it for an in-range
index, the lookup fails with the `SafeMath` revert — never silently
wrapping. -/
theorem claim_overflow_fails_closed (s : State) (sender : List Nat) (blk ts : Nat)
    (cid name : List Nat) (size i : Nat) :
    (∀ s', registerFile s sender blk ts cid name size = .ok s' →
      s'.totalFiles = s.totalFiles + 1 ∧ s.totalFiles * 256 < U256 ∧
        s.totalFiles + 1 < U256) ∧
    (s.paused = false → cid ≠ [] → name ≠ [] → size ≠ 0 →
      s.fileExists (cidToKey cid) ≠ 1 → name.length < 2 ^ 31 →
      U256 ≤ s.totalFiles * 256 →
      registerFile s sender blk ts cid name size = .error .MathOverflow) ∧
    (i < s.totalFiles → U256 ≤ i * 256 → getFileByIndex s i = .error .MathOverflow) := by
  refine ⟨?_, registerFile_mul_overflow s sender blk ts cid name size, ?_⟩
  · intro s' h
    obtain ⟨-, -, -, -, -, hmul, hadd, nameMap, cidMap, -, -, hs'⟩ :=
      registerFile_ok_elim _ _ _ _ _ _ _ _ h
    exact ⟨by rw [hs'], hmul, hadd⟩
  · intro hlt hover
    rw [getFileByIndex, if_neg (by omega), if_neg (by omega)]

/-- Witness for C8: with an (unreachably large) count of `2^250`, the
ordinal lookup at index `2^249` fails with the `SafeMath` revert. -/
theorem claim_overflow_fails_closed_witness :
    getFileByIndex { initState with totalFiles := 2 ^ 250 } (2 ^ 249) =
      .error .MathOverflow :=
  (claim_overflow_fails_closed { initState with totalFiles := 2 ^ 250 } devAddr
    1 2 [99] [97] 100 (2 ^ 249)).2.2 (by norm_num) (by norm_num [U256])

/-- **C2** (amended): after a successful registration of `cid`, a second
`registerFile` call with the same identifier and any other *valid*
arguments (non-empty name, non-zero size) fails with `AlreadyRegistered`
and, by revert semantics, leaves the whole state — in particular the
original record's fields — unchanged.  (As literally stated the claim is
false: an invalid second argument list fails with the input-validation
error instead, see the counterexample.) -/
theorem claim_duplicate_rejected (s s' : State) (sender sender2 : List Nat)
    (blk ts blk2 ts2 : Nat) (cid name name2 : List Nat) (size size2 : Nat)
    (hok : registerFile s sender blk ts cid name size = .ok s')
    (hn2 : name2 ≠ []) (hs2 : size2 ≠ 0) :
    registerFile s' sender2 blk2 ts2 cid name2 size2 = .error .AlreadyRegistered ∧
    registerStep s' sender2 blk2 ts2 cid name2 size2 = s' := by
  obtain ⟨hp, hc, -, -, -, -, -, nameMap, cidMap, -, -, hs'⟩ :=
    registerFile_ok_elim _ _ _ _ _ _ _ _ hok
  have hp' : s'.paused = false := by rw [hs']; exact hp
  have he' : s'.fileExists (cidToKey cid) = 1 := by
    rw [hs']
    exact update_same ..
  have her := registerFile_already s' sender2 blk2 ts2 cid name2 size2 hp' hc hn2 hs2 he'
  exact ⟨her, registerStep_of_error _ _ _ _ _ _ _ _ her⟩

/-- Witness for C2 (amended): concrete duplicate registration of `[99]`. -/
theorem claim_duplicate_rejected_witness :
    registerFile (registerStep initState devAddr 1 2 [99] [97] 100) devAddr 3 4
      [99] [98] 7 = .error .AlreadyRegistered :=
  (claim_duplicate_rejected initState (registerStep initState devAddr 1 2 [99] [97] 100)
    devAddr devAddr 1 2 3 4 [99] [97] [98] 100 7 (by rfl) (by simp) (by norm_num)).1

/-- Counterexample to **C2** as stated: after successfully registering
`[99]`, a second call with the same identifier but an *empty* name fails
with the input-validation revert (`EmptyName`), not `AlreadyRegistered` —
validation runs before the existence check. -/
theorem claim_duplicate_counterexample :
    isOkB (registerFile initState devAddr 1 2 [99] [97] 100) = true ∧
    registerFile (registerStep initState devAddr 1 2 [99] [97] 100) devAddr 1 2
      [99] [] 5 = .error .EmptyName ∧
    Err.EmptyName ≠ Err.AlreadyRegistered :=
  ⟨by rfl, by rfl, by decide⟩

/-- **C4** (amended): ordinal lookup contract, provided every registered
identifier is at most 8160 bytes (255 chunks — the bound the 256-slot
stride actually protects; the code itself never enforces it, see the
counterexample): `getFileByIndex i` fails with the out-of-bounds revert iff
`i ≥ totalFiles`, and for `i < totalFiles` it succeeds, returning the i-th
registered identifier in call order together with exactly the record fields
that `getFile` of that identifier returns. -/
theorem claim_ordinal_contract (s : State) (log : List (List Nat))
    (hr : Reachable s log) (hbound : ∀ c ∈ log, c.length ≤ 8160) (i : Nat) :
    (getFileByIndex s i = .error .IndexOutOfBounds ↔ s.totalFiles ≤ i) ∧
    (i < s.totalFiles →
      ∃ r : FileRecord, r.found = true ∧ getFile s (log.getD i []) = .ok r ∧
        getFileByIndex s i = .ok
          { cid := log.getD i [], fileName := r.fileName, fileSize := r.fileSize,
            uploader := r.uploader, blockNumber := r.blockNumber,
            timestamp := r.timestamp }) := by
  obtain ⟨ih1, ih2, ih3, ih4, ih5⟩ := reachable_invA s log hr
  have hB := reachable_invB s log hr hbound
  have main : ∀ _ : i < s.totalFiles,
      ∃ r : FileRecord, r.found = true ∧ getFile s (log.getD i []) = .ok r ∧
        getFileByIndex s i = .ok
          { cid := log.getD i [], fileName := r.fileName, fileSize := r.fileSize,
            uploader := r.uploader, blockNumber := r.blockNumber,
            timestamp := r.timestamp } := by
    intro hlt
    have hilt : i < log.length := by omega
    have hcread := hB i hilt
    have hmemD : log.getD i [] ∈ log := by
      rw [List.getD_eq_getElem?_getD, List.getElem?_eq_getElem hilt]
      simp only [Option.getD_some]
      exact List.getElem_mem hilt
    obtain ⟨hex, nm, hnmread⟩ := ih4 _ hmemD
    have hmul : i * 256 < U256 := by
      have hi248 : i < 2 ^ 248 := by omega
      simp only [U256]
      omega
    have hnle : ¬s.totalFiles ≤ i := by omega
    simp only [List.getD_eq_getElem?_getD] at hex hnmread hcread
    refine ⟨{ fileName := nm, fileSize := s.fileSizes (cidToKey (log.getD i [])),
              uploader := s.fileUploaders (cidToKey (log.getD i [])),
              blockNumber := s.fileBlocks (cidToKey (log.getD i [])),
              timestamp := s.fileTimestamps (cidToKey (log.getD i [])),
              found := true }, rfl, ?_, ?_⟩
    · simp [getFile, hex, hnmread]
    · simp [getFileByIndex, hnle, hmul, hcread, hnmread]
  refine ⟨⟨?_, ?_⟩, main⟩
  · intro herr
    by_contra hnle
    push_neg at hnle
    obtain ⟨r, -, -, hidx⟩ := main hnle
    rw [hidx] at herr
    exact absurd herr (by simp)
  · intro hle
    rw [getFileByIndex, if_pos hle]

/-- Witness for C4 (amended): in the freshly deployed store ordinal 0 is
out of range. -/
theorem claim_ordinal_contract_witness :
    getFileByIndex initState 0 = .error .IndexOutOfBounds :=
  ((claim_ordinal_contract initState [] Reachable.init (by simp) 0).1).mpr (Nat.le_refl 0)

/-- **C9** (amended): key-spacing non-overlap, provided the registered
identifier is at most 8160 bytes (the bound the stride-256 layout actually
protects; the code never enforces it, see the counterexample): a successful
registration writes its ordinal-indexed CID chunks only inside its own
256-slot region `[count*256, count*256 + 255]`, and its name chunks only
inside the window of its own derived key, never inside the window of any
other derived key. -/
theorem claim_key_spacing (s s' : State) (sender : List Nat) (blk ts : Nat)
    (cid name : List Nat) (size : Nat)
    (hok : registerFile s sender blk ts cid name size = .ok s')
    (hcid : cid.length ≤ 8160) (hnl : name.length < 2 ^ 31) :
    (∀ k, k < s.totalFiles * 256 ∨ s.totalFiles * 256 + 255 < k →
      s'.cidChunks k = s.cidChunks k) ∧
    (∀ c2, cidToKey c2 ≠ cidToKey cid → ∀ j, j ≤ 2 ^ 26 →
      s'.fileNameChunks (cidToKey c2 + j) = s.fileNameChunks (cidToKey c2 + j)) := by
  obtain ⟨-, -, -, -, -, -, -, nameMap, cidMap, hnm, hcm, hs'⟩ :=
    registerFile_ok_elim _ _ _ _ _ _ _ _ hok
  constructor
  · intro k hk
    rw [hs']
    show cidMap k = s.cidChunks k
    apply storeString_frame _ _ _ _ hcm
    rcases hk with h | h
    · exact Or.inl h
    · right
      have hw : (cid.length + 31) / 32 ≤ 255 := by omega
      omega
  · intro c2 hne j hj
    rw [hs']
    show nameMap (cidToKey c2 + j) = s.fileNameChunks (cidToKey c2 + j)
    apply storeString_frame _ _ _ _ hnm
    by_contra hcon
    push_neg at hcon
    obtain ⟨h1, h2⟩ := hcon
    have hw : (name.length + 31) / 32 ≤ 2 ^ 26 := by omega
    have hcancel := cidToKey_add_cancel c2 cid j (cidToKey c2 + j - cidToKey cid)
      (by omega) (by omega) (by omega)
    exact hne hcancel.1

/-- Witness for C9 (amended): registering `[99]` as ordinal 0 leaves slot
300 (outside region 0) of the CID chunk store untouched. -/
theorem claim_key_spacing_witness :
    (registerStep initState devAddr 1 2 [99] [97] 100).cidChunks 300 =
      initState.cidChunks 300 :=
  (claim_key_spacing initState (registerStep initState devAddr 1 2 [99] [97] 100)
    devAddr 1 2 [99] [97] 100 (by rfl) (by norm_num) (by norm_num)).1 300
    (Or.inr (by decide))

/-- **C10** (amended): frame property of registration, provided every
identifier involved is at most 8160 bytes (the code never enforces this
bound, and without it a later registration can corrupt an earlier ordinal
region — see the counterexample): a successful `registerFile` leaves
`getFile`/`checkFileExists` of every identifier with a different derived
key unchanged, and leaves `getFileByIndex` of every ordinal below the
pre-call count unchanged. -/
theorem claim_register_frame (s s' : State) (log : List (List Nat))
    (sender : List Nat) (blk ts : Nat) (cid name : List Nat) (size : Nat)
    (hr : Reachable s log) (hbound : ∀ c ∈ log, c.length ≤ 8160)
    (hcidb : ∀ b ∈ cid, b < 256) (hc8 : cid.length ≤ 8160)
    (hnameb : ∀ b ∈ name, b < 256) (hnl : name.length < 2 ^ 31)
    (hok : registerFile s sender blk ts cid name size = .ok s') :
    (∀ c2, cidToKey c2 ≠ cidToKey cid → getFile s' c2 = getFile s c2 ∧
      checkFileExists s' c2 = checkFileExists s c2) ∧
    (∀ j, j < s.totalFiles → getFileByIndex s' j = getFileByIndex s j) := by
  obtain ⟨ih1, ih2, ih3, ih4, ih5⟩ := reachable_invA s log hr
  obtain ⟨hp, hc, hn, hsz, he, hmul, hadd, nameMap, cidMap, hnm, hcm, hs'⟩ :=
    registerFile_ok_elim _ _ _ _ _ _ _ _ hok
  have hwin : ∀ c2, cidToKey c2 ≠ cidToKey cid → ∀ j, j ≤ 2 ^ 26 →
      nameMap (cidToKey c2 + j) = s.fileNameChunks (cidToKey c2 + j) := by
    intro c2 hne j hj
    apply storeString_frame _ _ _ _ hnm
    by_contra hcon
    push_neg at hcon
    obtain ⟨h1, h2⟩ := hcon
    have hw : (name.length + 31) / 32 ≤ 2 ^ 26 := by omega
    have hcancel := cidToKey_add_cancel c2 cid j (cidToKey c2 + j - cidToKey cid)
      (by omega) (by omega) (by omega)
    exact hne hcancel.1
  constructor
  · intro c2 hne
    have hex2 : s'.fileExists (cidToKey c2) = s.fileExists (cidToKey c2) := by
      rw [hs']
      exact update_other _ _ _ _ hne
    have hnm2 : readString s'.fileNameChunks (cidToKey c2) =
        readString s.fileNameChunks (cidToKey c2) := by
      rw [hs']
      exact readString_eq_of_window _ _ _ (fun j hj => hwin c2 hne j hj)
    have e1 : s'.fileSizes (cidToKey c2) = s.fileSizes (cidToKey c2) := by
      rw [hs']
      exact update_other _ _ _ _ hne
    have e2 : s'.fileUploaders (cidToKey c2) = s.fileUploaders (cidToKey c2) := by
      rw [hs']
      exact update_other _ _ _ _ hne
    have e3 : s'.fileBlocks (cidToKey c2) = s.fileBlocks (cidToKey c2) := by
      rw [hs']
      exact update_other _ _ _ _ hne
    have e4 : s'.fileTimestamps (cidToKey c2) = s.fileTimestamps (cidToKey c2) := by
      rw [hs']
      exact update_other _ _ _ _ hne
    constructor
    · simp only [getFile, hex2, hnm2, e1, e2, e3, e4]
    · simp only [checkFileExists, hex2]
  · intro j hjlt
    have hjl : j < log.length := by omega
    have hB := reachable_invB s log hr hbound
    have hr' : Reachable s' (log ++ [cid]) :=
      Reachable.register s log sender blk ts cid name size s' hr hcidb (by omega)
        hnameb hnl hok
    have hbound' : ∀ c ∈ log ++ [cid], c.length ≤ 8160 := by
      intro c hc2
      rcases List.mem_append.mp hc2 with h | h
      · exact hbound c h
      · simp only [List.mem_singleton] at h
        subst h
        exact hc8
    have hB' := reachable_invB s' _ hr' hbound'
    have hcr_s := hB j hjl
    have hcr_s' : readString s'.cidChunks (j * 256) = some (log.getD j []) := by
      have h := hB' j (by rw [List.length_append, List.length_singleton]; omega)
      rwa [List.getD_eq_getElem?_getD, List.getElem?_append_left hjl,
        ← List.getD_eq_getElem?_getD] at h
    have hmemD : log.getD j [] ∈ log := by
      rw [List.getD_eq_getElem?_getD, List.getElem?_eq_getElem hjl]
      simp only [Option.getD_some]
      exact List.getElem_mem hjl
    obtain ⟨hex, nm, hnmread⟩ := ih4 _ hmemD
    have hKcne : cidToKey (log.getD j []) ≠ cidToKey cid := fun heq => he (heq ▸ hex)
    have hnmread' : readString s'.fileNameChunks (cidToKey (log.getD j [])) = some nm := by
      rw [hs']
      show readString nameMap _ = _
      rw [readString_eq_of_window nameMap s.fileNameChunks _
        (fun j2 hj2 => hwin _ hKcne j2 hj2)]
      exact hnmread
    have hnile : ¬s.totalFiles ≤ j := by omega
    have hnile' : ¬s'.totalFiles ≤ j := by
      rw [hs']
      simp
      omega
    have hmulj : j * 256 < U256 := by
      have hj248 : j < 2 ^ 248 := by omega
      simp only [U256]
      omega
    have e1 : s'.fileSizes (cidToKey (log.getD j [])) =
        s.fileSizes (cidToKey (log.getD j [])) := by
      rw [hs']
      exact update_other _ _ _ _ hKcne
    have e2 : s'.fileUploaders (cidToKey (log.getD j [])) =
        s.fileUploaders (cidToKey (log.getD j [])) := by
      rw [hs']
      exact update_other _ _ _ _ hKcne
    have e3 : s'.fileBlocks (cidToKey (log.getD j [])) =
        s.fileBlocks (cidToKey (log.getD j [])) := by
      rw [hs']
      exact update_other _ _ _ _ hKcne
    have e4 : s'.fileTimestamps (cidToKey (log.getD j [])) =
        s.fileTimestamps (cidToKey (log.getD j [])) := by
      rw [hs']
      exact update_other _ _ _ _ hKcne
    simp only [List.getD_eq_getElem?_getD] at hcr_s hcr_s' hnmread hnmread' e1 e2 e3 e4
    simp [getFileByIndex, hnile, hnile', hmulj, hcr_s, hcr_s', hnmread, hnmread',
      e1, e2, e3, e4]

/-- Witness for C10 (amended): registering `[99]` in the fresh store leaves
the lookup of the unrelated identifier `[50]` unchanged. -/
theorem claim_register_frame_witness :
    getFile (registerStep initState devAddr 1 2 [99] [97] 100) [50] =
      getFile initState [50] :=
  ((claim_register_frame initState (registerStep initState devAddr 1 2 [99] [97] 100)
    [] devAddr 1 2 [99] [97] 100 Reachable.init (by simp) (by decide) (by norm_num)
    (by decide) (by norm_num) (by rfl)).1 [50] (by decide)).1

/-! ### The over-long-identifier scenario -/

theorem cex_facts :
    ∃ nameMap cidMap cidMap2,
      storeString initState.fileNameChunks (cidToKey cexCid) [65] = some nameMap ∧
      storeString initState.cidChunks 0 cexCid = some cidMap ∧
      storeString cidMap 256 [50] = some cidMap2 ∧
      registerFile initState devAddr 1 2 cexCid [65] 5 = .ok cexS1 ∧
      registerFile cexS1 devAddr 1 2 [50] [66] 7 = .ok cexS2 ∧
      cexS1.fileNameChunks = nameMap ∧
      cexS1.cidChunks = cidMap ∧
      cexS1.totalFiles = 1 ∧
      cexS2.cidChunks = cidMap2 ∧
      cexS2.totalFiles = 2 := by
  have hlen : cexCid.length = 8161 := by
    rw [cexCid, List.length_replicate]
  have hcnil : cexCid ≠ [] := by
    intro h
    have h2 := congrArg List.length h
    rw [hlen] at h2
    exact absurd h2 (by norm_num)
  obtain ⟨s1, h1⟩ := registerFile_ok_intro initState devAddr 1 2 cexCid [65] 5
    rfl hcnil (by simp) (by norm_num)
    (by intro h; exact absurd (show (0 : Nat) = 1 from h) (by norm_num)) (by norm_num)
    (by norm_num [initState, U256]) (by norm_num [initState, U256, hlen])
    (by norm_num [initState, U256])
  have hstep1 : cexS1 = s1 := by
    rw [cexS1]
    exact registerStep_of_ok _ _ _ _ _ _ _ _ h1
  obtain ⟨hp1, -, -, -, he1, hmul1, hadd1, nameMap, cidMap, hnm, hcm, hs1⟩ :=
    registerFile_ok_elim _ _ _ _ _ _ _ _ h1
  have hcm0 : storeString initState.cidChunks 0 cexCid = some cidMap := by
    have e : initState.totalFiles * 256 = 0 := rfl
    rw [e] at hcm
    exact hcm
  have hf1 : cexS1.fileNameChunks = nameMap := by rw [hstep1, hs1]
  have hf2 : cexS1.cidChunks = cidMap := by rw [hstep1, hs1]
  have hf3 : cexS1.totalFiles = 1 := by
    rw [hstep1, hs1]
    rfl
  have hp1' : cexS1.paused = false := by
    rw [hstep1, hs1]
    rfl
  have he2 : cexS1.fileExists (cidToKey [50]) = 0 := by
    calc cexS1.fileExists (cidToKey [50])
        = update initState.fileExists (cidToKey cexCid) 1 (cidToKey [50]) := by
          rw [hstep1, hs1]
      _ = initState.fileExists (cidToKey [50]) :=
          update_other _ _ _ _ (fun h => cexKeys_ne h.symm)
      _ = 0 := rfl
  obtain ⟨s2, h2⟩ := registerFile_ok_intro cexS1 devAddr 1 2 [50] [66] 7
    hp1' (by simp) (by simp) (by norm_num) (by rw [he2]; norm_num) (by norm_num)
    (by rw [hf3]; norm_num [U256]) (by rw [hf3]; norm_num [U256])
    (by rw [hf3]; norm_num [U256])
  have hstep2 : cexS2 = s2 := by
    rw [cexS2]
    exact registerStep_of_ok _ _ _ _ _ _ _ _ h2
  obtain ⟨-, -, -, -, -, -, -, nameMap2, cidMap2, hnm2, hcm2, hs2⟩ :=
    registerFile_ok_elim _ _ _ _ _ _ _ _ h2
  have hcm256 : storeString cidMap 256 [50] = some cidMap2 := by
    have e : cexS1.totalFiles * 256 = 256 := by rw [hf3]
    rw [e, hf2] at hcm2
    exact hcm2
  have hg1 : cexS2.cidChunks = cidMap2 := by rw [hstep2, hs2]
  have hg2 : cexS2.totalFiles = 2 := by
    rw [hstep2, hs2, hf3]
  have hr1 : registerFile initState devAddr 1 2 cexCid [65] 5 = .ok cexS1 := by
    rw [hstep1]
    exact h1
  have hr2 : registerFile cexS1 devAddr 1 2 [50] [66] 7 = .ok cexS2 := by
    rw [hstep2]
    exact h2
  exact ⟨nameMap, cidMap, cidMap2, hnm, hcm0, hcm256, hr1, hr2, hf1, hf2, hf3,
    hg1, hg2⟩

theorem cex_corrupted_read (cidMap cidMap2 : Nat → Nat)
    (hcm : storeString initState.cidChunks 0 cexCid = some cidMap)
    (hcm2 : storeString cidMap 256 [50] = some cidMap2) :
    readString cidMap2 0 = some (List.replicate 8160 1 ++ [0]) := by
  have hchunks1 : (cexCid.length + 31) / 32 = 256 := by
    rw [cexCid, List.length_replicate]
  have hb1 : cidMap 0 = 8161 := by
    have h := storeString_base _ _ _ _ hcm
    rw [cexCid, List.length_replicate] at h
    exact h
  have hb2 : cidMap2 0 = 8161 := by
    rw [storeString_frame _ _ _ _ hcm2 0 (Or.inl (by norm_num)), hb1]
  have hslot1 := storeString_slot _ _ _ _ hcm
  have hslot2mid : ∀ j, j < 255 → cidMap2 (j + 1) = bytesToNatBE (List.replicate 32 1) := by
    intro j hj
    have hfr : cidMap2 (j + 1) = cidMap (j + 1) :=
      storeString_frame _ _ _ _ hcm2 (j + 1) (Or.inl (by omega))
    have hv := hslot1 j (by rw [hchunks1]; omega)
    have hchunk : (cexCid.drop (32 * j)).take 32 = List.replicate 32 1 := by
      rw [cexCid, List.drop_replicate, List.take_replicate, Nat.min_eq_left (by omega)]
    rw [show (0 : Nat) + j + 1 = j + 1 from by omega] at hv
    rw [hfr, hv, hchunk, padChunk_full _ (by simp)]
  have hslot256 : cidMap2 256 = 1 := by
    have := storeString_base _ _ _ _ hcm2
    simpa using this
  simp only [readString, hb2]
  rw [show (8161 : Nat) % 2 ^ 32 = 8161 from by norm_num]
  rw [if_neg (by norm_num), if_pos (by norm_num)]
  rw [show (8161 + 31) / 32 = 256 from by norm_num]
  rw [readChunks_eq_readList _ _ _ _ (by norm_num [U256])]
  have hsplit : readList cidMap2 0 0 256 =
      readList cidMap2 0 0 255 ++ readList cidMap2 0 255 1 := by
    have h := readList_append cidMap2 0 255 1 0
    simpa using h
  have hpart1 : readList cidMap2 0 0 255 = List.replicate 8160 1 := by
    have h := readList_stored 0 255 0 (List.replicate 8160 1) cidMap2 ?_ ?_ ?_
    · rw [List.length_replicate, show 32 * 255 - (8160 : Nat) = 0 from by norm_num,
        List.replicate_zero, List.append_nil] at h
      exact h
    · intro j hj
      have hchunk2 : ((List.replicate 8160 (1 : Nat)).drop (32 * j)).take 32 =
          List.replicate 32 1 := by
        rw [List.drop_replicate, List.take_replicate, Nat.min_eq_left (by omega)]
      rw [show (0 : Nat) + 0 + j + 1 = j + 1 from by omega, hslot2mid j hj, hchunk2,
        padChunk_full _ (by simp)]
    · intro x hx
      rw [List.eq_of_mem_replicate hx]
      exact Nat.one_lt_two.trans (by norm_num)
    · rw [List.length_replicate]
  have hpart2 : readList cidMap2 0 255 1 = natToBytesBE 32 1 := by
    rw [readList, readList]
    rw [show (0 : Nat) + (255 + 1) = 256 from by omega, hslot256]
    simp
  rw [hsplit, hpart1, hpart2]
  have htake : (List.replicate 8160 (1 : Nat) ++ natToBytesBE 32 1).take 8161 =
      List.replicate 8160 1 ++ [0] := by
    rw [List.take_append_eq_append_take]
    simp only [List.length_replicate, List.take_replicate,
      Nat.min_eq_right (by norm_num : (8160 : Nat) ≤ 8161)]
    congr 1
  show some ((List.replicate 8160 (1 : Nat) ++ natToBytesBE 32 1).take 8161) =
    some (List.replicate 8160 1 ++ [0])
  rw [htake]

theorem getFileByIndex_some (s : State) (i : Nat) (c nm : List Nat)
    (hnle : ¬s.totalFiles ≤ i) (hmul : i * 256 < U256)
    (hcid : readString s.cidChunks (i * 256) = some c)
    (hnm : readString s.fileNameChunks (cidToKey c) = some nm) :
    getFileByIndex s i = .ok ⟨c, nm, s.fileSizes (cidToKey c),
      s.fileUploaders (cidToKey c), s.fileBlocks (cidToKey c),
      s.fileTimestamps (cidToKey c)⟩ := by
  simp [getFileByIndex, hnle, hmul, hcid, hnm]

theorem getFileByIndex_noname (s : State) (i : Nat) (c : List Nat)
    (hnle : ¬s.totalFiles ≤ i) (hmul : i * 256 < U256)
    (hcid : readString s.cidChunks (i * 256) = some c)
    (hnm : readString s.fileNameChunks (cidToKey c) = none) :
    getFileByIndex s i = .error .MathOverflow := by
  simp [getFileByIndex, hnle, hmul, hcid, hnm]

/-- Counterexample to **C9** as stated: the code accepts the 8161-byte
identifier `cexCid`, and storing it as ordinal 0 writes a non-zero chunk
into slot `1 * 256` — the base slot of ordinal 1's reserved region — so the
chunk slots of one stored string do overlap the next ordinal's region. -/
theorem claim_spacing_counterexample :
    isOkB (registerFile initState devAddr 1 2 cexCid [65] 5) = true ∧
    initState.cidChunks (1 * 256) = 0 ∧
    cexS1.cidChunks (1 * 256) ≠ 0 := by
  obtain ⟨nameMap, cidMap, cidMap2, hnm, hcm, hcm2, hr1, hr2, hf1, hf2, hf3, hg1, hg2⟩ :=
    cex_facts
  refine ⟨by rw [hr1]; rfl, rfl, ?_⟩
  rw [hf2]
  have hchunks1 : (cexCid.length + 31) / 32 = 256 := by
    rw [cexCid, List.length_replicate]
  have hslot := storeString_slot _ _ _ _ hcm 255 (by rw [hchunks1]; omega)
  have hdrop : (cexCid.drop (32 * 255)).take 32 = [1] := by
    rw [cexCid, List.drop_replicate, List.take_replicate,
      Nat.min_eq_right (by norm_num),
      show (8161 - 32 * 255 : Nat) = 1 from by norm_num]
    decide
  rw [show (1 * 256 : Nat) = 0 + 255 + 1 from by norm_num, hslot, hdrop]
  decide

/-- Counterexample to **C4** as stated: after the code accepts the
8161-byte identifier `cexCid` as ordinal 0 and then the ordinary
identifier `[50]` as ordinal 1 (two successful registrations), the second
registration's length slot lands inside ordinal 0's chunk range, so
`getFileByIndex 0` no longer returns the identifier of the 0-th
registration. -/
theorem claim_ordinal_counterexample :
    isOkB (registerFile initState devAddr 1 2 cexCid [65] 5) = true ∧
    isOkB (registerFile cexS1 devAddr 1 2 [50] [66] 7) = true ∧
    0 < cexS2.totalFiles ∧
    Except.map IndexedFile.cid (getFileByIndex cexS2 0) ≠ .ok cexCid := by
  obtain ⟨nameMap, cidMap, cidMap2, hnm, hcm, hcm2, hr1, hr2, hf1, hf2, hf3, hg1, hg2⟩ :=
    cex_facts
  have hw : readString cexS2.cidChunks 0 = some (List.replicate 8160 1 ++ [0]) := by
    rw [hg1]
    exact cex_corrupted_read cidMap cidMap2 hcm hcm2
  have hsplit : cexCid = List.replicate 8160 1 ++ [1] := by
    rw [cexCid, show (8161 : Nat) = 8160 + 1 from rfl, List.replicate_succ']
  have hvne : List.replicate 8160 (1 : Nat) ++ [0] ≠ cexCid := by
    rw [hsplit]
    intro heq
    exact absurd (List.append_cancel_left heq) (by decide)
  have hnle : ¬cexS2.totalFiles ≤ 0 := by
    rw [hg2]
    norm_num
  have hm0 : (0 : Nat) * 256 < U256 := by norm_num [U256]
  have hw0 : readString cexS2.cidChunks (0 * 256) =
      some (List.replicate 8160 1 ++ [0]) := by
    rw [show (0 * 256 : Nat) = 0 from by norm_num]
    exact hw
  refine ⟨by rw [hr1]; rfl, by rw [hr2]; rfl, by rw [hg2]; norm_num, ?_⟩
  cases hread : readString cexS2.fileNameChunks
      (cidToKey (List.replicate 8160 1 ++ [0])) with
  | none =>
    rw [getFileByIndex_noname cexS2 0 _ hnle hm0 hw0 hread]
    simp [Except.map]
  | some nm =>
    rw [getFileByIndex_some cexS2 0 _ nm hnle hm0 hw0 hread]
    intro hcontra
    exact hvne (Except.ok.inj hcontra)

/-- Counterexample to **C10** as stated: before the second registration,
`getFileByIndex 0` returns the 8161-byte identifier `cexCid`; the
successful registration of `[50]` then changes `getFileByIndex 0`'s result,
so registration does not leave earlier ordinals unchanged. -/
theorem claim_frame_counterexample :
    isOkB (registerFile cexS1 devAddr 1 2 [50] [66] 7) = true ∧
    0 < cexS1.totalFiles ∧
    Except.map IndexedFile.cid (getFileByIndex cexS1 0) = .ok cexCid ∧
    Except.map IndexedFile.cid (getFileByIndex cexS2 0) ≠ .ok cexCid := by
  obtain ⟨nameMap, cidMap, cidMap2, hnm, hcm, hcm2, hr1, hr2, hf1, hf2, hf3, hg1, hg2⟩ :=
    cex_facts
  have hcb : ∀ b ∈ cexCid, b < 256 := by
    intro b hb
    rw [cexCid] at hb
    rw [List.eq_of_mem_replicate hb]
    norm_num
  have hcl : cexCid.length < 2 ^ 31 := by
    rw [cexCid, List.length_replicate]
    norm_num
  have hrdcid : readString cexS1.cidChunks 0 = some cexCid := by
    rw [hf2]
    exact storeString_readString _ _ _ hcb hcl _ hcm
  have hrdnm : readString cexS1.fileNameChunks (cidToKey cexCid) = some [65] := by
    rw [hf1]
    exact storeString_readString _ _ _ (by decide) (by norm_num) _ hnm
  have hnle1 : ¬cexS1.totalFiles ≤ 0 := by
    rw [hf3]
    norm_num
  have hm0 : (0 : Nat) * 256 < U256 := by norm_num [U256]
  have hrd0 : readString cexS1.cidChunks (0 * 256) = some cexCid := by
    rw [show (0 * 256 : Nat) = 0 from by norm_num]
    exact hrdcid
  have hw : readString cexS2.cidChunks 0 = some (List.replicate 8160 1 ++ [0]) := by
    rw [hg1]
    exact cex_corrupted_read cidMap cidMap2 hcm hcm2
  have hsplit : cexCid = List.replicate 8160 1 ++ [1] := by
    rw [cexCid, show (8161 : Nat) = 8160 + 1 from rfl, List.replicate_succ']
  have hvne : List.replicate 8160 (1 : Nat) ++ [0] ≠ cexCid := by
    rw [hsplit]
    intro heq
    exact absurd (List.append_cancel_left heq) (by decide)
  have hnle2 : ¬cexS2.totalFiles ≤ 0 := by
    rw [hg2]
    norm_num
  have hw0 : readString cexS2.cidChunks (0 * 256) =
      some (List.replicate 8160 1 ++ [0]) := by
    rw [show (0 * 256 : Nat) = 0 from by norm_num]
    exact hw
  refine ⟨by rw [hr2]; rfl, by rw [hf3]; norm_num, ?_, ?_⟩
  · rw [getFileByIndex_some cexS1 0 cexCid [65] hnle1 hm0 hrd0 hrdnm]
    rfl
  · cases hread : readString cexS2.fileNameChunks
        (cidToKey (List.replicate 8160 1 ++ [0])) with
    | none =>
      rw [getFileByIndex_noname cexS2 0 _ hnle2 hm0 hw0 hread]
      simp [Except.map]
    | some nm =>
      rw [getFileByIndex_some cexS2 0 _ nm hnle2 hm0 hw0 hread]
      intro hcontra
      exact hvne (Except.ok.inj hcontra)

end OPScribe
